import Mathlib

/-!
# Verification of the chat-llama streaming/rendering frontend

A shallow embedding of the client-side pipeline of
`src/frontend/src/App.svelte`: URL sanitization, citation rewriting,
badge-link rewriting, the raw-HTML renderer override, the inline-math
tokenizer, the SSE stream decoder, and the event router that mutates
conversation state.

JavaScript strings are modelled as `List Char` (written `Str`); the
relevant JavaScript string operations (`split`, `trim`, `replace`,
`startsWith`, `slice`) are translated to structurally recursive
functions on `List Char`.  Regular-expression matching in the source is
translated to deterministic anchored matchers: every regex used by the
code has lazy or greedy parts whose character classes exclude the
following delimiter, so matching needs no backtracking.

The whitespace class `\s` and `String.prototype.trim` are modelled by
the ASCII whitespace characters; the Unicode space characters accepted
by JavaScript are not modelled.
-/

set_option autoImplicit false

namespace ChatLlama

abbrev Str := List Char

/-- ASCII model of the JavaScript whitespace class `\s` (and of the
characters removed by `String.prototype.trim`). -/
def isJsWs (c : Char) : Bool :=
  c = ' ' || c = '\t' || c = '\n' || c = '\r' || c = '\x0b' || c = '\x0c'

/-- `String.prototype.trim`: drop whitespace from both ends. -/
def jsTrim (s : Str) : Str :=
  ((s.dropWhile isJsWs).reverse.dropWhile isJsWs).reverse

/-- The regex class `[0-9]` (`\d`), on code points. -/
def isDigitCh (c : Char) : Bool := 48 ≤ c.toNat && c.toNat ≤ 57

/-- The regex class `[a-zA-Z]`, on code points. -/
def isAlphaCh (c : Char) : Bool :=
  (97 ≤ c.toNat && c.toNat ≤ 122) || (65 ≤ c.toNat && c.toNat ≤ 90)

/-- ASCII `toLowerCase`, the model of `String.prototype.toLowerCase`
for the characters this code compares (scheme letters). -/
def lowerCh (c : Char) : Char :=
  if 65 ≤ c.toNat && c.toNat ≤ 90 then Char.ofNat (c.toNat + 32) else c

def lowerStr (s : Str) : Str := s.map lowerCh

/-- Case-insensitive character comparison, the model of a regex `/i` flag
on ASCII letters. -/
def ciEq (a b : Char) : Bool := lowerCh a = lowerCh b

/-- Consume the literal `pat` from the head of `s`; return the rest. -/
def consumeLit : Str → Str → Option Str
  | [], s => some s
  | _ :: _, [] => none
  | p :: ps, c :: cs => if p = c then consumeLit ps cs else none

/-- Consume the literal `pat` case-insensitively from the head of `s`. -/
def consumeLitCI : Str → Str → Option Str
  | [], s => some s
  | _ :: _, [] => none
  | p :: ps, c :: cs => if ciEq p c then consumeLitCI ps cs else none

/-- Does `pat` occur as a substring of `s`? -/
def hasSub (pat : Str) : Str → Bool
  | [] => (consumeLit pat []).isSome
  | c :: r => (consumeLit pat (c :: r)).isSome || hasSub pat r

/-- `escapeHtml` (App.svelte:46-52): `&` → `&amp;`, `<` → `&lt;`,
`>` → `&gt;`.  The three sequential `String.replace` calls commute with
a single character-by-character pass because the replacement entities
contain none of the characters replaced later. -/
def escChar (c : Char) : Str :=
  if c = '&' then ['&', 'a', 'm', 'p', ';']
  else if c = '<' then ['&', 'l', 't', ';']
  else if c = '>' then ['&', 'g', 't', ';']
  else [c]

def escapeHtml : Str → Str
  | [] => []
  | c :: r => escChar c ++ escapeHtml r

/-- The `.replace(/\n/g, '<br>')` applied to the markdown fallback
(App.svelte:366,369). -/
def nlToBr : Str → Str
  | [] => []
  | c :: r => (if c = '\n' then ['<', 'b', 'r', '>'] else [c]) ++ nlToBr r

/-- The plain-text fallback of `renderMarkdown`:
`escapeHtml(s).replace(/\n/g, '<br>')`.  `escapeHtml` leaves `'\n'`
unchanged and produces no `'\n'`, so the composition is faithful. -/
def escapeAndBr (s : Str) : Str := nlToBr (escapeHtml s)

/-! ## UrlSanitizer (App.svelte:61-71)

`sanitizeUrl` calls the browser's `new URL(url, origin)`, which is not
part of this repository.  `parseURL` below is modelled from the spec
(§4.5): "resolve the URL against a fixed base origin; if the resolved
scheme (lowercased) is `javascript:` or `data:`, return `#`; on any
parse failure, return `#`".  The missing code is the WHATWG URL parser;
the model keeps only what the spec relies on: scheme extraction and
lowercasing, resolution of scheme-less input against the fixed base
origin `http://localhost` (the fallback base in the source), failure
when a special scheme has no `//host` authority, and serialization that
round-trips.  Path normalization and percent-encoding are not
modelled. -/

structure ParsedURL where
  /-- the lowercased scheme including the trailing `':'`,
  as in the browser's `URL.protocol` -/
  protocol : Str
  /-- the serialized absolute URL, as in the browser's `URL.href` -/
  href : Str
  deriving DecidableEq, Repr

def isSchemeCh (c : Char) : Bool :=
  isAlphaCh c || isDigitCh c || c = '+' || c = '-' || c = '.'

/-- Split `url` as `<scheme> ":" <rest>` when it begins with a letter
followed by scheme characters and a colon. -/
def splitScheme (url : Str) : Option (Str × Str) :=
  match url with
  | [] => none
  | c :: rest =>
    if isAlphaCh c then
      let sch := (c :: rest).takeWhile isSchemeCh
      match consumeLit (sch ++ [':']) (c :: rest) with
      | some r => some (sch, r)
      | none => none
    else none

/-- Is the (lowercased) scheme one of the special schemes that require a
`//host` authority? -/
def isSpecialScheme (p : Str) : Bool :=
  p = ('h' :: 't' :: 't' :: 'p' :: [':']) ||
  p = ('h' :: 't' :: 't' :: 'p' :: 's' :: [':'])

/-- Modelled from the spec: the browser URL constructor
`new URL(url, "http://localhost")` used by `sanitizeUrl`
(App.svelte:64).  Absolute URLs keep their (lowercased) scheme; special
schemes additionally require a nonempty `//`-authority; scheme-less
input is resolved against the base origin `http://localhost`. -/
def parseURL (url : Str) : Option ParsedURL :=
  match splitScheme url with
  | some (sch, rest) =>
    if isSpecialScheme (lowerStr sch ++ [':']) then
      match rest with
      | '/' :: '/' :: r =>
        if r = [] then none
        else some ⟨lowerStr sch ++ [':'], lowerStr sch ++ ':' :: rest⟩
      | _ => none
    else
      some ⟨lowerStr sch ++ [':'], lowerStr sch ++ ':' :: rest⟩
  | none =>
    match url with
    | '/' :: '/' :: r =>
      if r = [] then none
      else some ⟨"http:".data, "http:".data ++ url⟩
    | '/' :: _ => some ⟨"http:".data, "http://localhost".data ++ url⟩
    | _ => some ⟨"http:".data, "http://localhost/".data ++ url⟩

/-- `sanitizeUrl` (App.svelte:61-71): empty input yields `"#"`;
a `javascript:`/`data:` resolved scheme yields `"#"`; a parse failure
(the `catch`) yields `"#"`; otherwise the resolved `href`. -/
def sanitizeUrl (url : Str) : Str :=
  if url = [] then ['#']
  else
    match parseURL url with
    | none => ['#']
    | some p =>
      if p.protocol = "javascript:".data || p.protocol = "data:".data
      then ['#'] else p.href

/-! ## StreamDecoder: the read loop of `sendMessage` (App.svelte:597-667)

The loop accumulates chunks into `buffer`, splits on the blank-line
delimiter `"\n\n"` (`buffer.split('\n\n')`), pops the final element back
into `buffer`, and parses each completed block into an SSE event. -/

/-- `buffer.split('\n\n')` with the last element popped off:
returns the completed blocks and the retained tail.  JavaScript `split`
scans for the leftmost non-overlapping occurrences of the separator,
which is exactly this left-to-right recursion. -/
def splitBlocks : Str → List Str × Str
  | [] => ([], [])
  | [c] => ([], [c])
  | c :: d :: rest =>
    if c = '\n' ∧ d = '\n' then
      ([] :: (splitBlocks rest).1, (splitBlocks rest).2)
    else
      match splitBlocks (d :: rest) with
      | ([], t) => ([], c :: t)
      | (b :: bs, t) => ((c :: b) :: bs, t)

/-- Does the string contain the delimiter `"\n\n"`? -/
def containsBlank : Str → Bool
  | [] => false
  | [_] => false
  | c :: d :: rest => (c = '\n' && d = '\n') || containsBlank (d :: rest)

/-- The read loop over a list of arriving chunks: feed each chunk into
the buffer, split off the completed blocks, and keep the unterminated
tail.  Returns the blocks (in order) together with the final buffer,
which the loop discards when the reader reports `done`. -/
def runChunks (buf : Str) : List Str → List Str × Str
  | [] => ([], buf)
  | c :: cs =>
    ((splitBlocks (buf ++ c)).1 ++ (runChunks (splitBlocks (buf ++ c)).2 cs).1,
      (runChunks (splitBlocks (buf ++ c)).2 cs).2)

/-- `evt.split('\n')`. -/
def splitLines : Str → List Str
  | [] => [[]]
  | '\n' :: r => [] :: splitLines r
  | c :: r =>
    match splitLines r with
    | [] => [[c]]
    | l :: ls => (c :: l) :: ls

/-- One step of the per-block line loop (App.svelte:619-627): an
`event:` line replaces the event name, a `data:` line is trimmed and
appended to the data buffer with a `'\n'` separator, any other line is
ignored.  The accumulator is `(eventName, dataBuf)`. -/
def sseLineStep (acc : Str × Str) (line : Str) : Str × Str :=
  match consumeLit "event:".data line with
  | some rest => (jsTrim rest, acc.2)
  | none =>
    match consumeLit "data:".data line with
    | some rest =>
      (acc.1,
        if acc.2 = [] then jsTrim rest else acc.2 ++ '\n' :: jsTrim rest)
    | none => acc

/-- Parse one blank-line-delimited block into a decoded event
(App.svelte:607-632): skip blank blocks, split into lines, trim each
line and drop the empty ones, fold the `event:`/`data:` lines with the
default name `"message"`, and skip the block when no data accumulated.
The `[DONE]` sentinel and JSON parsing belong to routing, not
decoding. -/
def parseBlock (evt : Str) : Option (Str × Str) :=
  if jsTrim evt = [] then none
  else
    match ((splitLines evt).map jsTrim).filter (fun l => !l.isEmpty)
        |>.foldl sseLineStep ("message".data, []) with
    | (_, []) => none
    | (n, d :: ds) => some (n, d :: ds)

/-- The full decoding of a chunked stream: all events of the completed
blocks, in order; the final unterminated buffer is discarded. -/
def decodeStream (chunks : List Str) : List (Str × Str) :=
  ((runChunks [] chunks).1).filterMap parseBlock

/-! ## CitationRewriter: `applySourceLinks` (App.svelte:318-341)

Two global regex replacements over the text: first the bracketed pattern
`/\[link\s*\[(\d+)\]\]/gi`, then the bare pattern `/link\s*\[(\d+)\]/gi`.
A JavaScript global `replace` scans the original string left to right,
substitutes each match, and resumes after the match (replacements are
not rescanned within the same pass).  The patterns are deterministic:
`\s*` and `(\d+)` are greedy over classes that exclude the following
literal, so the anchored matchers below need no backtracking. -/

/-- One element of the `sources` array, as used by `applySourceLinks`:
only `url` is read (`!source?.url`), other metadata is irrelevant.  An
absent property and an empty string are both falsy. -/
structure Src where
  url : Option Str
  deriving DecidableEq

/-- `parseInt(numStr, 10)` on a nonempty digit string. -/
def natOfDigits (ds : Str) : Nat :=
  ds.foldl (fun n c => n * 10 + (c.toNat - 48)) 0

/-- The replacement callback `replaceWithLink` (App.svelte:323-333):
with `n = parseInt(numStr)`, an out-of-range index (`n = 0` or
`n > sources.length`) or a missing/empty `url` returns the match `raw`
unchanged; otherwise the Markdown link
`[link &#91;numStr&#93;](sanitizeUrl(url))`. -/
def replaceWithLink (sources : List Src) (raw ds : Str) : Str :=
  if natOfDigits ds = 0 ∨ sources.length < natOfDigits ds then raw
  else
    match sources.get? (natOfDigits ds - 1) with
    | none => raw
    | some src =>
      match src.url with
      | none => raw
      | some u =>
        if u = [] then raw
        else "[link &#91;".data ++ ds ++ "&#93;](".data ++ sanitizeUrl u ++ [')']

/-- Anchored match of the bare pattern `link\s*\[(\d+)\]` (case
insensitive): returns the raw matched text, the digit group, and the
rest of the string. -/
def matchBare (s : Str) : Option (Str × Str × Str) :=
  match consumeLitCI "link".data s with
  | none => none
  | some s2 =>
    match s2.dropWhile isJsWs with
    | [] => none
    | x :: s3 =>
      if x = '[' then
        if s3.takeWhile isDigitCh = [] then none
        else
          match s3.dropWhile isDigitCh with
          | [] => none
          | y :: rest =>
            if y = ']' then
              some (s.take 4 ++ s2.takeWhile isJsWs ++
                  '[' :: s3.takeWhile isDigitCh ++ [']'],
                s3.takeWhile isDigitCh, rest)
            else none
      else none

/-- Anchored match of the bracketed pattern `\[link\s*\[(\d+)\]\]` (case
insensitive). -/
def matchBracketed (s : Str) : Option (Str × Str × Str) :=
  match s with
  | [] => none
  | c :: s1 =>
    if c = '[' then
      match consumeLitCI "link".data s1 with
      | none => none
      | some s2 =>
        match s2.dropWhile isJsWs with
        | [] => none
        | x :: s3 =>
          if x = '[' then
            if s3.takeWhile isDigitCh = [] then none
            else
              match s3.dropWhile isDigitCh with
              | [] => none
              | y :: rest1 =>
                if y = ']' then
                  match rest1 with
                  | [] => none
                  | z :: rest =>
                    if z = ']' then
                      some ('[' :: s1.take 4 ++ s2.takeWhile isJsWs ++
                          '[' :: s3.takeWhile isDigitCh ++ "]]".data,
                        s3.takeWhile isDigitCh, rest)
                    else none
                else none
          else none
    else none

theorem consumeLitCI_length {p s r : Str} (h : consumeLitCI p s = some r) :
    s.length = p.length + r.length := by
  induction p generalizing s with
  | nil =>
    simp only [consumeLitCI, Option.some.injEq] at h
    simp [← h]
  | cons c cs ih =>
    match s with
    | [] => simp [consumeLitCI] at h
    | d :: ds =>
      simp only [consumeLitCI] at h
      split at h
      · have := ih h
        simp [this]
        omega
      · exact absurd h (by simp)

theorem length_dropWhile_le (p : Char → Bool) (l : Str) :
    (l.dropWhile p).length ≤ l.length := by
  induction l with
  | nil => simp [List.dropWhile]
  | cons c r ih =>
    rw [List.dropWhile]
    split
    · simp
      omega
    · simp

theorem matchBare_rest_length {s raw ds rest : Str}
    (h : matchBare s = some (raw, ds, rest)) : rest.length < s.length := by
  unfold matchBare at h
  cases hc : consumeLitCI "link".data s with
  | none => rw [hc] at h; exact absurd h (by simp)
  | some s2 =>
    rw [hc] at h
    dsimp only at h
    have hl2 : s.length = 4 + s2.length := consumeLitCI_length hc
    cases hdw : s2.dropWhile isJsWs with
    | nil => rw [hdw] at h; exact absurd h (by simp)
    | cons x s3 =>
      rw [hdw] at h
      have hl3 : s3.length < s2.length := by
        have hle := length_dropWhile_le isJsWs s2
        rw [hdw] at hle
        simp at hle
        omega
      dsimp only at h
      split_ifs at h with hx hds
      cases hdd : s3.dropWhile isDigitCh with
      | nil => rw [hdd] at h; exact absurd h (by simp)
      | cons y rest1 =>
        rw [hdd] at h
        have hl4 : rest1.length < s3.length + 1 := by
          have hle := length_dropWhile_le isDigitCh s3
          rw [hdd] at hle
          simp at hle
          omega
        dsimp only at h
        split_ifs at h with hy
        have h' := Option.some.inj h
        have hrest : rest1 = rest := congrArg (fun q => q.2.2) h'
        have hlr : rest1.length = rest.length := by rw [hrest]
        omega

theorem matchBracketed_rest_length {s raw ds rest : Str}
    (h : matchBracketed s = some (raw, ds, rest)) : rest.length < s.length := by
  unfold matchBracketed at h
  match s, h with
  | c :: s1, h =>
    dsimp only at h
    split_ifs at h with hc
    cases hcl : consumeLitCI "link".data s1 with
    | none => rw [hcl] at h; exact absurd h (by simp)
    | some s2 =>
      rw [hcl] at h
      dsimp only at h
      have hl2 : s1.length = 4 + s2.length := consumeLitCI_length hcl
      cases hdw : s2.dropWhile isJsWs with
      | nil => rw [hdw] at h; exact absurd h (by simp)
      | cons x s3 =>
        rw [hdw] at h
        have hl3 : s3.length < s2.length := by
          have hle := length_dropWhile_le isJsWs s2
          rw [hdw] at hle
          simp at hle
          omega
        dsimp only at h
        split_ifs at h with hx hds
        cases hdd : s3.dropWhile isDigitCh with
        | nil => rw [hdd] at h; exact absurd h (by simp)
        | cons y rest1 =>
          rw [hdd] at h
          have hl4 : rest1.length < s3.length + 1 := by
            have hle := length_dropWhile_le isDigitCh s3
            rw [hdd] at hle
            simp at hle
            omega
          dsimp only at h
          split_ifs at h with hy
          cases rest1 with
          | nil => exact absurd h (by simp)
          | cons z rest2 =>
            dsimp only at h
            split_ifs at h with hz
            have h' := Option.some.inj h
            have hrest : rest2 = rest := congrArg (fun q => q.2.2) h'
            have hlr : rest2.length = rest.length := by rw [hrest]
            simp only [List.length_cons] at hl4
            simp only [List.length_cons]
            omega

/-- The first pass, `text.replace(/\[link\s*\[(\d+)\]\]/gi, replaceWithLink)`
(App.svelte:335): scan left to right, replace each match, resume after
it. -/
def applyBracketedPass (sources : List Src) : Str → Str
  | [] => []
  | c :: cs =>
    match hm : matchBracketed (c :: cs) with
    | some (raw, ds, rest) =>
      replaceWithLink sources raw ds ++ applyBracketedPass sources rest
    | none => c :: applyBracketedPass sources cs
termination_by s => s.length
decreasing_by
  · exact matchBracketed_rest_length hm
  · simp

/-- The second pass, `updated.replace(/link\s*\[(\d+)\]/gi, ...)`
(App.svelte:336-338). -/
def applyBarePass (sources : List Src) : Str → Str
  | [] => []
  | c :: cs =>
    match hm : matchBare (c :: cs) with
    | some (raw, ds, rest) =>
      replaceWithLink sources raw ds ++ applyBarePass sources rest
    | none => c :: applyBarePass sources cs
termination_by s => s.length
decreasing_by
  · exact matchBare_rest_length hm
  · simp

/-- `applySourceLinks` (App.svelte:318-341): empty text or an empty
source list short-circuits; otherwise the bracketed pass runs first and
the bare pass runs on its output. -/
def applySourceLinks (text : Str) (sources : List Src) : Str :=
  if text = [] ∨ sources = [] then text
  else applyBarePass sources (applyBracketedPass sources text)

/-- Fuel-based evaluator for `applyBracketedPass` (the well-founded
recursion above does not reduce definitionally; this twin does, and
`bracketedPassF_eq` identifies them). -/
def applyBracketedPassF (S : List Src) : Nat → Str → Str
  | 0, s => s
  | _ + 1, [] => []
  | fuel + 1, c :: cs =>
    match matchBracketed (c :: cs) with
    | some (raw, ds, rest) =>
      replaceWithLink S raw ds ++ applyBracketedPassF S fuel rest
    | none => c :: applyBracketedPassF S fuel cs

/-- Fuel-based evaluator for `applyBarePass`. -/
def applyBarePassF (S : List Src) : Nat → Str → Str
  | 0, s => s
  | _ + 1, [] => []
  | fuel + 1, c :: cs =>
    match matchBare (c :: cs) with
    | some (raw, ds, rest) =>
      replaceWithLink S raw ds ++ applyBarePassF S fuel rest
    | none => c :: applyBarePassF S fuel cs

/-- Executable form of `applySourceLinks`, identified with it by
`applySourceLinks_eval`. -/
def applySourceLinksF (text : Str) (sources : List Src) : Str :=
  if text = [] ∨ sources = [] then text
  else
    applyBarePassF sources
      (applyBracketedPassF sources text.length text).length
      (applyBracketedPassF sources text.length text)

/-- A citation marker: `[link␣w␣[ds]]` when `brk`, else `link␣w␣[ds]`,
with `w` the whitespace matched by `\s*` and `ds` the digit group. -/
def citeMarker (brk : Bool) (w ds : Str) : Str :=
  if brk then '[' :: ("link".data ++ w ++ '[' :: ds ++ ']' :: [']'])
  else "link".data ++ w ++ '[' :: ds ++ [']']

/-- The produced Markdown link `[link &#91;ds&#93;](sanitizeUrl u)`. -/
def citeRep (ds u : Str) : Str :=
  "[link &#91;".data ++ ds ++ "&#93;](".data ++ sanitizeUrl u ++ [')']

/-! ## Inline math tokenizer (`mathExtensions`, App.svelte:274-305) -/

/-- JavaScript line terminators: `\n`, `\r`, U+2028, U+2029.  `.` in a
regex without the `s` flag matches every character except these. -/
def isLineTerm (c : Char) : Bool :=
  c = '\n' || c = '\r' || c.toNat = 8232 || c.toNat = 8233

/-- `/^\$([^\n$]+?)\$/` (App.svelte:285): a `$`, a nonempty lazy run of
characters other than newline and `$`, then a closing `$`.  The class
excludes the closing delimiter, so the lazy run extends exactly to the
first `$` or fails at a newline or the end of input. -/
def dollarMatch (src : Str) : Option (Str × Str) :=
  match src with
  | '$' :: rest =>
    let body := rest.takeWhile (fun c => !(c = '\n' || c = '$'))
    match rest.drop body.length with
    | '$' :: _ => if body = [] then none else some ('$' :: body ++ ['$'], body)
    | _ => none
  | _ => none

/-- The lazy scan of `/(.+?)\\\)/` after at least one character has
been consumed: before each further character, stop at `\)`; `.` fails
on a line terminator or at the end of input.  Returns the accumulated
body and the input remaining after the closing `\)`. -/
def parenLoop : Str → Str → Option (Str × Str)
  | _, [] => none
  | _, [_] => none
  | acc, c :: d :: cs =>
    if c = '\\' ∧ d = ')' then some (acc, cs)
    else if isLineTerm c then none else parenLoop (acc ++ [c]) (d :: cs)

/-- `/^\\\((.+?)\\\)/` (App.svelte:293, the `s` flag absent): literal
`\(`, then a lazy nonempty run of non-line-terminator characters, then
the first `\)`.  Returns `(raw, body)`. -/
def parenMatch (src : Str) : Option (Str × Str) :=
  match src with
  | '\\' :: '(' :: c :: cs =>
    if isLineTerm c then none
    else
      match parenLoop [c] cs with
      | some (body, _) => some ('\\' :: '(' :: (body ++ ['\\', ')']), body)
      | none => none
  | _ => none

/-- The `mathInline` tokenizer (App.svelte:284-301): try the `$` form,
then the `\( \)` form; `none` models the tokenizer returning
`undefined` (no math token at this position). -/
def mathInlineTokenizer (src : Str) : Option (Str × Str) :=
  match dollarMatch src with
  | some t => some t
  | none => parenMatch src

/-- `renderMath` (App.svelte:224-239).  `katex.renderToString` is
third-party code, passed as a function `katexFn` whose `none` models a
thrown exception; the catch branch wraps the escaped source in a
`span`/`div`. -/
def renderMath (katexFn : Str → Bool → Option Str) (text : Str)
    (displayMode : Bool) : Str :=
  match katexFn text displayMode with
  | some html => html
  | none =>
    if displayMode then
      "<div class=\"math math-block\">".data ++ escapeHtml text ++
        "</div>".data
    else
      "<span class=\"math\">".data ++ escapeHtml text ++ "</span>".data

/-- The `mathInline` extension's renderer (App.svelte:302-304):
`renderMath(token.text, false)` applied to a `(raw, text)` token. -/
def mathInlineRender (katexFn : Str → Bool → Option Str)
    (tok : Str × Str) : Str :=
  renderMath katexFn tok.2 false

/-! ## Badge rewriting and the markdown pipeline (App.svelte:209-222,
343-371)

`replaceBadgeLinks` rewrites `[![alt](imgUrl)](href)` with the regex
`/\[!\[([^\]]*?)\]\(([^)]+?)\)\]\(([^)]+?)\)/g`.  Every lazy group's
class excludes the delimiter that follows it, so the match at a
position is deterministic: each group runs to the first delimiter. -/

/-- Match the badge pattern at the head of `s`; returns
`(alt, imgUrl, href, rest)`. -/
def matchBadge (s : Str) : Option (Str × Str × Str × Str) :=
  (consumeLit "[![".data s).bind fun r1 =>
    let alt := r1.takeWhile (fun c => c != ']')
    (consumeLit "](".data (r1.drop alt.length)).bind fun r2 =>
      let img := r2.takeWhile (fun c => c != ')')
      if img = [] then none
      else
        (consumeLit ")](".data (r2.drop img.length)).bind fun r3 =>
          let href := r3.takeWhile (fun c => c != ')')
          if href = [] then none
          else
            (consumeLit [')'] (r3.drop href.length)).bind fun r4 =>
              some (alt, img, href, r4)

/-- The replacement anchor built at App.svelte:348-351. -/
def badgeRep (alt img href : Str) : Str :=
  "<a href=\"".data ++ sanitizeUrl href ++
    "\" target=\"_blank\" rel=\"noreferrer\"><img src=\"".data ++
    sanitizeUrl img ++ "\" alt=\"".data ++ escapeHtml alt ++
    "\" loading=\"lazy\" /></a>".data

theorem consumeLit_length {p s r : Str} (h : consumeLit p s = some r) :
    s.length = p.length + r.length := by
  induction p generalizing s with
  | nil =>
    simp only [consumeLit, Option.some.injEq] at h
    simp [← h]
  | cons c cs ih =>
    match s with
    | [] => simp [consumeLit] at h
    | d :: ds =>
      simp only [consumeLit] at h
      split at h
      · have := ih h
        simp [this]
        omega
      · exact absurd h (by simp)

theorem matchBadge_rest_length {s alt img href rest : Str}
    (h : matchBadge s = some (alt, img, href, rest)) :
    rest.length < s.length := by
  unfold matchBadge at h
  rw [Option.bind_eq_some] at h
  obtain ⟨r1, hr1, h⟩ := h
  dsimp only at h
  rw [Option.bind_eq_some] at h
  obtain ⟨r2, hr2, h⟩ := h
  by_cases himg : List.takeWhile (fun c => c != ')') r2 = []
  · rw [if_pos himg] at h
    exact absurd h (by simp)
  · rw [if_neg himg] at h
    rw [Option.bind_eq_some] at h
    obtain ⟨r3, hr3, h⟩ := h
    (try dsimp only at h)
    by_cases hhref : List.takeWhile (fun c => c != ')') r3 = []
    · rw [if_pos hhref] at h
      exact absurd h (by simp)
    · rw [if_neg hhref] at h
      rw [Option.bind_eq_some] at h
      obtain ⟨r4, hr4, h⟩ := h
      (try dsimp only at h)
      have hrest : r4 = rest := congrArg (fun q => q.2.2.2) (Option.some.inj h)
      have l1 := consumeLit_length hr1
      have l2 := consumeLit_length hr2
      have l3 := consumeLit_length hr3
      have l4 := consumeLit_length hr4
      rw [show (("[![".data : Str)).length = 3 from rfl] at l1
      rw [List.length_drop] at l2 l3 l4
      simp only [List.length_cons, List.length_nil] at l2 l3 l4
      rw [← hrest]
      omega
/-- `replaceBadgeLinks` (App.svelte:343-354): scan left to right,
replace each badge match, resume after it.  (The `if (!text)` guard is
the identity on the empty string, which the scan also maps to itself.) -/
def replaceBadgeLinks : Str → Str
  | [] => []
  | c :: cs =>
    match hm : matchBadge (c :: cs) with
    | some (alt, img, href, rest) =>
      badgeRep alt img href ++ replaceBadgeLinks rest
    | none => c :: replaceBadgeLinks cs
termination_by s => s.length
decreasing_by
  · exact matchBadge_rest_length hm
  · simp

/-- Fuel-based evaluator for `replaceBadgeLinks`. -/
def replaceBadgeLinksF : Nat → Str → Str
  | 0, s => s
  | _ + 1, [] => []
  | fuel + 1, c :: cs =>
    match matchBadge (c :: cs) with
    | some (alt, img, href, rest) =>
      badgeRep alt img href ++ replaceBadgeLinksF fuel rest
    | none => c :: replaceBadgeLinksF fuel cs

/-- `\s+` at the head: at least one whitespace character, then as many
as possible (the following literal starts with a non-whitespace
character, so full munch is faithful). -/
def reqWs1 (s : Str) : Option Str :=
  match s with
  | c :: cs => if isJsWs c then some (cs.dropWhile isJsWs) else none
  | [] => none

/-- `\s*` at the head. -/
def skipWs (s : Str) : Str := s.dropWhile isJsWs

/-- `"[^"]+"` (or `"[^"]*"` when `allowEmpty`): a quoted value whose
class excludes the closing quote. -/
def reqQuoted (allowEmpty : Bool) (s : Str) : Option Str :=
  let v := s.takeWhile (fun c => c != '"')
  if v = [] ∧ allowEmpty = false then none
  else
    match s.drop v.length with
    | '"' :: r => some r
    | _ => none

/-- `breakPattern` `/^<br\s*\/?>$/i` (App.svelte:214) tested against a
whole string. -/
def breakMatch (s : Str) : Bool :=
  match consumeLitCI "<br".data s with
  | none => false
  | some r =>
    match r.dropWhile isJsWs with
    | ['>'] => true
    | ['/', '>'] => true
    | _ => false

/-- `badgePattern`, first segment:
`<a\s+href="[^"]+"\s+target="_blank"\s+rel="noreferrer">`. -/
def badgeAnchor (s : Str) : Option Str :=
  (consumeLitCI "<a".data s).bind fun r1 =>
  (reqWs1 r1).bind fun r2 =>
  (consumeLitCI "href=\"".data r2).bind fun r3 =>
  (reqQuoted false r3).bind fun r4 =>
  (reqWs1 r4).bind fun r5 =>
  (consumeLitCI "target=\"_blank\"".data r5).bind fun r6 =>
  (reqWs1 r6).bind fun r7 =>
  consumeLitCI "rel=\"noreferrer\">".data r7

/-- `badgePattern`, second segment:
`\s*<img\s+src="[^"]+"\s+alt="[^"]*"\s+loading="lazy"`. -/
def badgeImg (s : Str) : Option Str :=
  (consumeLitCI "<img".data (skipWs s)).bind fun r9 =>
  (reqWs1 r9).bind fun r10 =>
  (consumeLitCI "src=\"".data r10).bind fun r11 =>
  (reqQuoted false r11).bind fun r12 =>
  (reqWs1 r12).bind fun r13 =>
  (consumeLitCI "alt=\"".data r13).bind fun r14 =>
  (reqQuoted true r14).bind fun r15 =>
  (reqWs1 r15).bind fun r16 =>
  consumeLitCI "loading=\"lazy\"".data r16

/-- `badgePattern`, final segment: `\s*\/>\s*<\/a>`. -/
def badgeClose (s : Str) : Option Str :=
  (consumeLitCI "/>".data (skipWs s)).bind fun r18 =>
  consumeLitCI "</a>".data (skipWs r18)

/-- The body of `badgePattern` (App.svelte:212-213), anchored at the
head; returns the remainder after `</a>`. -/
def badgeCore (s : Str) : Option Str :=
  (badgeAnchor s).bind fun r8 =>
  (badgeImg r8).bind fun r17 =>
  badgeClose r17

/-- `badgePattern.test(trimmed)`: the anchored pattern must consume the
whole string. -/
def badgeMatch (s : Str) : Bool :=
  match badgeCore s with
  | some r => r.isEmpty
  | none => false

/-- `renderer.html` (App.svelte:209-222): trim the raw HTML token; a
sole `<br>` becomes `<br />`; HTML matching the badge anchor shape is
returned verbatim (trimmed); anything else is HTML-escaped
(untrimmed). -/
def rendererHtml (html : Str) : Str :=
  if breakMatch (jsTrim html) then "<br />".data
  else if badgeMatch (jsTrim html) then jsTrim html
  else escapeHtml html

/-- `renderMarkdown` (App.svelte:356-371).  `marked.parse` is
third-party code, passed as `markedParse`; `Except.error` models a
thrown exception, and the non-string-result branch (App.svelte:365-366)
falls to the same fallback expression. -/
def renderMarkdown (markedParse : Str → Except Unit Str) (text : Str)
    (sources : List Src) : Str :=
  if text = [] then []
  else
    match markedParse (replaceBadgeLinks (applySourceLinks text sources)) with
    | Except.ok rendered => rendered
    | Except.error _ =>
      escapeAndBr (replaceBadgeLinks (applySourceLinks text sources))

/-! ## StreamRouter and conversation state (App.svelte:634-684)

The routing loop parses each decoded event's payload with the built-in
`JSON.parse`; that parser is not repository code, so it is abstracted as
a parameter `parse : Str → Option Json` — `none` models a thrown
`SyntaxError`.  The conversation record keeps the fields the streaming
loop reads or writes (`id`, `messages`, `sources`); the wall-clock
`updatedAt` (set from `Date.now()`), `title`, `createdAt` and
`useSearch` are neither read nor branched on by the loop and are not
modelled, nor are the purely presentational `showLoadingBubble`/scroll
updates. -/

inductive Json where
  | null
  | bool (b : Bool)
  | num (n : Int)
  | str (s : Str)
  | arr (xs : List Json)
  | obj (fields : List (Str × Json))

structure Msg where
  role : Str
  content : Str
  deriving DecidableEq

structure Conv where
  id : Str
  messages : List Msg
  sources : Json

structure AppState where
  conversations : List Conv
  currentId : Str

/-- `currentConversation`: `conversations.find((c) => c.id === currentId)`
(App.svelte:35-36). -/
def findConv (st : AppState) : Option Conv :=
  st.conversations.find? (fun c => c.id = st.currentId)

/-- Replace the first conversation satisfying `p` (object mutation via
the reference returned by `find` corresponds to updating the first
match). -/
def updateFirst (p : Conv → Bool) (f : Conv → Conv) : List Conv → List Conv
  | [] => []
  | c :: r => if p c then f c :: r else c :: updateFirst p f r

/-- In-place update of `messages[i]`; out-of-range leaves the list
unchanged (the loop only uses the valid `assistantIndex`). -/
def updateIdx (f : Msg → Msg) : Nat → List Msg → List Msg
  | _, [] => []
  | 0, m :: r => f m :: r
  | n + 1, m :: r => m :: updateIdx f n r

def jlookup (fields : List (Str × Json)) (k : Str) : Option Json :=
  (fields.find? (fun f => f.1 = k)).map (·.2)

/-- `json.choices?.[0]?.delta?.content ?? ''` (App.svelte:652): the text
delta at the fixed path; an absent path or non-string content yields the
empty (falsy) delta. -/
def extractDelta (j : Json) : Str :=
  match j with
  | .obj f =>
    match jlookup f "choices".data with
    | some (.arr (c :: _)) =>
      match c with
      | .obj cf =>
        match jlookup cf "delta".data with
        | some (.obj df) =>
          match jlookup df "content".data with
          | some (.str s) => s
          | _ => []
        | _ => []
      | _ => []
    | _ => []
  | _ => []

/-- `currentConversation.sources = parsed` (App.svelte:639). -/
def setConvSources (st : AppState) (parsed : Json) : AppState :=
  { st with conversations :=
      (updateFirst (fun c => c.id = st.currentId)
        (fun c => { c with sources := parsed }) st.conversations) }

/-- `currentConversation.messages[assistantIndex].content += delta`
(App.svelte:654). -/
def appendConvDelta (st : AppState) (aIdx : Nat) (delta : Str) : AppState :=
  { st with conversations :=
      (updateFirst (fun c => c.id = st.currentId)
        (fun c => { c with messages :=
            (updateIdx (fun m => { m with content := (m.content ++ delta) })
              aIdx c.messages) })
        st.conversations) }

/-- Routing of one decoded event (App.svelte:629-667): skip empty data
and the `[DONE]` sentinel; a `sources` event replaces the current
conversation's source list wholesale when the owning conversation is
still selected, and is dropped (logged) on a parse failure; any other
event is parsed as a chat chunk whose delta is appended when non-empty
and the owning conversation is still selected, and dropped silently
otherwise. -/
def routeEvent (parse : Str → Option Json) (convId : Str) (aIdx : Nat)
    (st : AppState) (ev : Str × Str) : AppState :=
  if ev.2 = [] then st
  else if ev.2 = "[DONE]".data then st
  else if ev.1 = "sources".data then
    match parse ev.2 with
    | none => st
    | some parsed =>
      match findConv st with
      | some cur => if cur.id = convId then setConvSources st parsed else st
      | none => st
  else
    match parse ev.2 with
    | none => st
    | some json =>
      match findConv st with
      | some cur =>
        if extractDelta json ≠ [] ∧ cur.id = convId then
          appendConvDelta st aIdx (extractDelta json)
        else st
      | none => st

def applyEvents (parse : Str → Option Json) (convId : Str) (aIdx : Nat)
    (st : AppState) (evs : List (Str × Str)) : AppState :=
  evs.foldl (routeEvent parse convId aIdx) st

/-- The fixed fallback error string of the `catch` block
(App.svelte:674). -/
def fallbackMsg : Str :=
  "Sorry, something went wrong while streaming from the model.".data

/-- The `catch` block (App.svelte:669-677):
`content = content || fallback`, applied only when the owning
conversation is still the selected one. -/
def applyCatch (convId : Str) (aIdx : Nat) (st : AppState) : AppState :=
  match findConv st with
  | some cur =>
    if cur.id = convId then
      { st with conversations :=
          (updateFirst (fun c => c.id = st.currentId)
            (fun c => { c with messages :=
                (updateIdx (fun m =>
                    { m with content :=
                        (if m.content = [] then fallbackMsg else m.content) })
                  aIdx c.messages) }) st.conversations) }
    else st
  | none => st

/-- One streaming turn, from after the placeholder assistant message
exists: the decoded events processed before termination, then either a
normal end of stream (`done`, no further action) or an exception
(transport error, non-ok response, abort), which runs the `catch`
block. -/
def runTurn (parse : Str → Option Json) (convId : Str) (aIdx : Nat)
    (st : AppState) (evs : List (Str × Str)) (errored : Bool) : AppState :=
  if errored then applyCatch convId aIdx (applyEvents parse convId aIdx st evs)
  else applyEvents parse convId aIdx st evs

/-- The content of message `i` of the conversation with id `convId`. -/
def contentAt (st : AppState) (convId : Str) (i : Nat) : Option Str :=
  match st.conversations.find? (fun c => c.id = convId) with
  | some c => (c.messages.get? i).map (·.content)
  | none => none

/-! ## Basic lemmas about characters and matching primitives -/

theorem char_toNat_ofNat (n : Nat) (h : n.isValidChar) : (Char.ofNat n).toNat = n := by
  simp [Char.ofNat, h, Char.ofNatAux, Char.toNat, UInt32.toNat]

theorem char_eq_iff (a b : Char) : a = b ↔ a.toNat = b.toNat :=
  ⟨fun h => by rw [h], fun h => Char.eq_of_val_eq (UInt32.toNat.inj h)⟩

theorem lowerCh_toNat (c : Char) :
    (lowerCh c).toNat = if 65 ≤ c.toNat ∧ c.toNat ≤ 90 then c.toNat + 32 else c.toNat := by
  unfold lowerCh
  by_cases h : 65 ≤ c.toNat ∧ c.toNat ≤ 90
  · have hb : (65 ≤ c.toNat && c.toNat ≤ 57 + 33) = true := by
      simp only [Bool.and_eq_true, decide_eq_true_eq]; omega
    rw [if_pos (by simpa using hb), if_pos h]
    exact char_toNat_ofNat _ (Or.inl (by omega))
  · have hb : ¬ ((65 ≤ c.toNat && c.toNat ≤ 90) = true) := by
      simp only [Bool.and_eq_true, decide_eq_true_eq]; omega
    rw [if_neg (by simpa using hb), if_neg h]

theorem lowerCh_idem (c : Char) : lowerCh (lowerCh c) = lowerCh c := by
  rw [char_eq_iff]
  simp only [lowerCh_toNat]
  split_ifs <;> omega

theorem isAlphaCh_lowerCh (c : Char) : isAlphaCh (lowerCh c) = isAlphaCh c := by
  simp only [isAlphaCh, Bool.and_eq_decide, Bool.or_eq_decide, lowerCh_toNat]
  rw [decide_eq_decide]
  split_ifs <;> omega

theorem isSchemeCh_lowerCh (c : Char) (h : isSchemeCh c = true) :
    isSchemeCh (lowerCh c) = true := by
  simp only [isSchemeCh, isAlphaCh, isDigitCh, Bool.or_eq_true, Bool.and_eq_true,
    decide_eq_true_eq, char_eq_iff, lowerCh_toNat] at h ⊢
  have h43 : ('+').toNat = 43 := rfl
  have h45 : ('-').toNat = 45 := rfl
  have h46 : ('.').toNat = 46 := rfl
  rw [h43, h45, h46] at h ⊢
  split_ifs at h ⊢ <;> omega

theorem lowerStr_idem (s : Str) : lowerStr (lowerStr s) = lowerStr s := by
  simp only [lowerStr, List.map_map]
  exact List.map_congr_left fun c _ => lowerCh_idem c

theorem consumeLit_append (p s : Str) : consumeLit p (p ++ s) = some s := by
  induction p with
  | nil => rfl
  | cons c r ih => simpa [consumeLit] using ih

theorem consumeLit_eq_some {p s r : Str} (h : consumeLit p s = some r) : s = p ++ r := by
  induction p generalizing s with
  | nil =>
    simp only [consumeLit, Option.some.injEq] at h
    simpa using h
  | cons c cs ih =>
    match s with
    | [] => simp [consumeLit] at h
    | d :: ds =>
      simp only [consumeLit] at h
      split at h
      · next heq => simpa [heq] using ih h
      · exact absurd h (by simp)

theorem takeWhile_append_cons {p : Char → Bool} (l : Str) (x : Char) (r : Str)
    (hl : ∀ c ∈ l, p c = true) (hx : p x = false) :
    (l ++ x :: r).takeWhile p = l := by
  induction l with
  | nil => simp [List.takeWhile, hx]
  | cons c cs ih =>
    have hc : p c = true := hl c (List.mem_cons_self c cs)
    simp only [List.cons_append, List.takeWhile, hc]
    exact congrArg (c :: ·) (ih fun d hd => hl d (List.mem_cons_of_mem c hd))

/-! ### Scheme splitting round-trips -/

theorem splitScheme_some {url sch rest : Str} (h : splitScheme url = some (sch, rest)) :
    url = sch ++ ':' :: rest ∧ (∀ c ∈ sch, isSchemeCh c = true) ∧
      ∃ c cs, sch = c :: cs ∧ isAlphaCh c = true := by
  match url with
  | [] => simp [splitScheme] at h
  | c :: r =>
    simp only [splitScheme] at h
    split at h
    · next halpha =>
      set tw := (c :: r).takeWhile isSchemeCh with htw
      cases hcl : consumeLit (tw ++ [':']) (c :: r) with
      | none => rw [hcl] at h; exact absurd h (by simp)
      | some rr =>
        rw [hcl] at h
        obtain ⟨rfl, rfl⟩ : tw = sch ∧ rr = rest := by
          simpa using h
        have hurl := consumeLit_eq_some hcl
        refine ⟨by simpa using hurl, fun d hd => List.mem_takeWhile_imp hd, ?_⟩
        have hcsch : isSchemeCh c = true := by
          simp only [isSchemeCh, halpha, Bool.true_or]
        have : tw = c :: r.takeWhile isSchemeCh := by
          simp [htw, List.takeWhile, hcsch]
        exact ⟨c, r.takeWhile isSchemeCh, this, halpha⟩
    · exact absurd h (by simp)

theorem splitScheme_of_shape (sch rest : Str) (c : Char) (cs : Str)
    (hsch : sch = c :: cs) (halpha : isAlphaCh c = true)
    (hall : ∀ d ∈ sch, isSchemeCh d = true) :
    splitScheme (sch ++ ':' :: rest) = some (sch, rest) := by
  subst hsch
  have hcolon : isSchemeCh ':' = false := by decide
  have htw : List.takeWhile isSchemeCh (c :: (cs ++ ':' :: rest)) = c :: cs :=
    takeWhile_append_cons (c :: cs) ':' rest hall hcolon
  have hc : consumeLit ((c :: cs) ++ [':']) (c :: (cs ++ ':' :: rest)) = some rest := by
    have h2 := consumeLit_append ((c :: cs) ++ [':']) rest
    simpa [List.append_assoc] using h2
  simp only [List.cons_append, splitScheme, halpha, if_true]
  rw [htw, hc]

/-! ### `parseURL` round-trips on its own serializations -/

/-- A URL of the shape `http://t` with `t` nonempty reparses to itself. -/
theorem parseURL_http_slashes (t : Str) (ht : t ≠ []) :
    parseURL ("http:".data ++ '/' :: '/' :: t) =
      some ⟨"http:".data, "http:".data ++ '/' :: '/' :: t⟩ := by
  have hsplit : splitScheme ("http".data ++ ':' :: ('/' :: '/' :: t)) =
      some ("http".data, '/' :: '/' :: t) :=
    splitScheme_of_shape "http".data ('/' :: '/' :: t) 'h' "ttp".data rfl
      (by decide) (by decide)
  have hshape : ("http:".data ++ '/' :: '/' :: t) = "http".data ++ ':' :: ('/' :: '/' :: t) := rfl
  rw [hshape]
  unfold parseURL
  rw [hsplit]
  have hlow : lowerStr "http".data = "http".data := by decide
  simp only [hlow]
  rw [if_pos (by decide)]
  rw [if_neg ht]
  rfl

theorem parseURL_roundtrip {u : Str} {p : ParsedURL} (h : parseURL u = some p) :
    p.href ≠ [] ∧ parseURL p.href = some p := by
  unfold parseURL at h
  split at h
  case _ sch rest hs =>
    obtain ⟨hurl, hall, c, cs, hshape, halpha⟩ := splitScheme_some hs
    have hall' : ∀ d ∈ lowerStr sch, isSchemeCh d = true := by
      intro d hd
      obtain ⟨e, he, rfl⟩ := List.mem_map.mp hd
      exact isSchemeCh_lowerCh e (hall e he)
    have hshape' : lowerStr sch = lowerCh c :: lowerStr cs := by
      rw [hshape]; rfl
    have halpha' : isAlphaCh (lowerCh c) = true := by
      rw [isAlphaCh_lowerCh]; exact halpha
    have hsplit' : ∀ r2 : Str, splitScheme (lowerStr sch ++ ':' :: r2) =
        some (lowerStr sch, r2) :=
      fun r2 => splitScheme_of_shape _ r2 _ _ hshape' halpha' hall'
    have hlowidem : lowerStr (lowerStr sch) = lowerStr sch := lowerStr_idem sch
    by_cases hspec : isSpecialScheme (lowerStr sch ++ [':']) = true
    · rw [if_pos hspec] at h
      split at h
      · next r =>
        by_cases hr : r = []
        · rw [if_pos hr] at h; exact absurd h (by simp)
        · rw [if_neg hr] at h
          have hp := Option.some.inj h
          constructor
          · rw [← hp]; simp [hshape']
          · rw [← hp]
            show parseURL (lowerStr sch ++ ':' :: ('/' :: '/' :: r)) = _
            unfold parseURL
            simp [hsplit', hlowidem, hspec, hr]
      · exact absurd h (by simp)
    · rw [if_neg hspec] at h
      have hp := Option.some.inj h
      constructor
      · rw [← hp]; simp [hshape']
      · rw [← hp]
        show parseURL (lowerStr sch ++ ':' :: rest) = _
        unfold parseURL
        simp [hsplit', hlowidem, hspec]
  case _ hs =>
    split at h
    · next r =>
      by_cases hr : r = []
      · rw [if_pos hr] at h; exact absurd h (by simp)
      · rw [if_neg hr] at h
        have hp := Option.some.inj h
        constructor
        · rw [← hp]; simp
        · rw [← hp]
          show parseURL ("http:".data ++ '/' :: '/' :: r) = _
          rw [parseURL_http_slashes r hr]
    · next u' hnot =>
      have hp := Option.some.inj h
      constructor
      · rw [← hp]; simp
      · rw [← hp]
        show parseURL ("http:".data ++ '/' :: '/' :: ("localhost".data ++ '/' :: u')) = _
        rw [parseURL_http_slashes ("localhost".data ++ '/' :: u') (by simp)]
        rfl
    · next =>
      have hp := Option.some.inj h
      constructor
      · rw [← hp]; simp
      · rw [← hp]
        show parseURL ("http:".data ++ '/' :: '/' :: ("localhost/".data ++ u)) = _
        rw [parseURL_http_slashes ("localhost/".data ++ u) (by simp)]
        rfl

/-! ## Decoder lemmas: splitting is a left fold over the chunks -/

theorem splitBlocks_fst_nil {s : Str} (h : (splitBlocks s).1 = []) :
    (splitBlocks s).2 = s := by
  induction s using splitBlocks.induct with
  | case1 => rfl
  | case2 c => rfl
  | case3 c d rest hcd ih =>
    rw [splitBlocks, if_pos hcd] at h
    exact absurd h (by simp)
  | case4 c d rest hcd t heq ih =>
    have ht : t = d :: rest := by
      have h2 := ih (by rw [heq])
      rw [heq] at h2
      simpa using h2
    rw [splitBlocks, if_neg hcd, heq, ht]
  | case5 c d rest hcd bb bs t heq ih =>
    rw [splitBlocks, if_neg hcd, heq] at h
    exact absurd h (by simp)

theorem containsBlank_cons_of_not (c d : Char) (rest : Str)
    (hcd : ¬(c = '\n' ∧ d = '\n')) :
    containsBlank (c :: d :: rest) = containsBlank (d :: rest) := by
  rw [containsBlank]
  by_cases h1 : c = '\n'
  · by_cases h2 : d = '\n'
    · exact absurd ⟨h1, h2⟩ hcd
    · simp [h2]
  · simp [h1]

theorem containsBlank_splitBlocks_snd (s : Str) :
    containsBlank (splitBlocks s).2 = false := by
  induction s using splitBlocks.induct with
  | case1 => rfl
  | case2 c => rfl
  | case3 c d rest hcd ih =>
    rw [splitBlocks, if_pos hcd]
    exact ih
  | case4 c d rest hcd t heq ih =>
    have ht : t = d :: rest := by
      have h2 := @splitBlocks_fst_nil (d :: rest) (by rw [heq])
      rw [heq] at h2
      simpa using h2
    rw [heq, ht] at ih
    rw [splitBlocks, if_neg hcd, heq]
    show containsBlank (c :: t) = false
    rw [ht, containsBlank_cons_of_not c d rest hcd]
    simpa using ih
  | case5 c d rest hcd bb bs t heq ih =>
    rw [heq] at ih
    rw [splitBlocks, if_neg hcd, heq]
    exact ih

theorem splitBlocks_of_no_blank {s : Str} (h : containsBlank s = false) :
    splitBlocks s = ([], s) := by
  induction s using splitBlocks.induct with
  | case1 => rfl
  | case2 c => rfl
  | case3 c d rest hcd ih =>
    exfalso
    rw [containsBlank] at h
    simp [hcd.1, hcd.2] at h
  | case4 c d rest hcd t heq ih =>
    have ht : t = d :: rest := by
      have h2 := @splitBlocks_fst_nil (d :: rest) (by rw [heq])
      rw [heq] at h2
      simpa using h2
    rw [splitBlocks, if_neg hcd, heq, ht]
  | case5 c d rest hcd bb bs t heq ih =>
    rw [containsBlank_cons_of_not c d rest hcd] at h
    rw [ih h] at heq
    exact absurd heq (by simp)

/-- Splitting distributes over concatenation: the blocks of `a ++ b` are
the blocks of `a` followed by the blocks of `a`'s retained tail prefixed
to `b`. -/
theorem splitBlocks_append (a b : Str) :
    splitBlocks (a ++ b) =
      ((splitBlocks a).1 ++ (splitBlocks ((splitBlocks a).2 ++ b)).1,
        (splitBlocks ((splitBlocks a).2 ++ b)).2) := by
  induction a using splitBlocks.induct with
  | case1 => rfl
  | case2 c => rfl
  | case3 c d rest hcd ih =>
    show splitBlocks (c :: d :: (rest ++ b)) = _
    rw [splitBlocks, if_pos hcd, ih]
    rw [show splitBlocks (c :: d :: rest) =
      ([] :: (splitBlocks rest).1, (splitBlocks rest).2) by
        rw [splitBlocks, if_pos hcd]]
    simp
  | case4 c d rest hcd t heq ih =>
    have ht : t = d :: rest := by
      have h2 := @splitBlocks_fst_nil (d :: rest) (by rw [heq])
      rw [heq] at h2
      simpa using h2
    have hsb : splitBlocks (c :: d :: rest) = ([], c :: d :: rest) := by
      rw [splitBlocks, if_neg hcd, heq, ht]
    rw [hsb]
    rfl
  | case5 c d rest hcd bb bs t heq ih =>
    have hsb : splitBlocks (c :: d :: rest) = ((c :: bb) :: bs, t) := by
      rw [splitBlocks, if_neg hcd, heq]
    show splitBlocks (c :: d :: (rest ++ b)) = _
    rw [splitBlocks, if_neg hcd]
    rw [show (d :: (rest ++ b)) = (d :: rest) ++ b from rfl, ih, heq]
    rw [hsb]
    simp

/-- The incremental read loop computes exactly the one-shot split of the
concatenation of buffer and remaining chunks. -/
theorem runChunks_eq (cs : List Str) (buf : Str)
    (hb : containsBlank buf = false) :
    runChunks buf cs = splitBlocks (buf ++ cs.flatten) := by
  induction cs generalizing buf with
  | nil =>
    rw [runChunks, List.flatten_nil, List.append_nil,
      splitBlocks_of_no_blank hb]
  | cons c cs ih =>
    rw [runChunks, List.flatten_cons, ← List.append_assoc,
      splitBlocks_append (buf ++ c) cs.flatten]
    rw [ih _ (containsBlank_splitBlocks_snd (buf ++ c))]

/-! ## Claim C2: decoding is invariant under re-chunking -/

/-- **C2.** For every raw input string and every two ways of splitting it
into chunks fed to the stream-decoding loop, the resulting sequences of
decoded events are identical: any partial block after the last
blank-line delimiter is buffered and prefixed to the next chunk, so
decoding only depends on the concatenation of the chunks. -/
theorem decodeStream_rechunk (chunks₁ chunks₂ : List Str)
    (h : chunks₁.flatten = chunks₂.flatten) :
    decodeStream chunks₁ = decodeStream chunks₂ := by
  unfold decodeStream
  rw [runChunks_eq chunks₁ [] rfl, runChunks_eq chunks₂ [] rfl,
    List.nil_append, List.nil_append, h]

/-- Witness for C2: the sample stream cut in the middle of an `event:`
line and cut at the delimiter decode to the same two events. -/
theorem decodeStream_rechunk_witness :
    decodeStream (["event: sources\ndata: [1]\n\nev".data,
        "ent: message\ndata: hi\n".data, "\n".data]) =
      decodeStream (["event: sources\ndata: [1]\n\nevent: message\ndata: hi\n\n".data]) :=
  decodeStream_rechunk
    ["event: sources\ndata: [1]\n\nev".data, "ent: message\ndata: hi\n".data,
      "\n".data]
    ["event: sources\ndata: [1]\n\nevent: message\ndata: hi\n\n".data]
    (by decide)

/-! ## Claim C10: the final unterminated buffer is discarded -/

/-- **C10.** When the stream ends while the decode buffer still holds
trailing text not terminated by the blank-line delimiter, that text is
discarded: appending any such trailing chunk to a stream produces
exactly the events of the stream without it, whatever the chunk's
content (including a complete-looking `event:`/`data:` block missing
only its final blank line). -/
theorem decodeStream_discards_tail (chunks : List Str) (t : Str)
    (h : containsBlank ((runChunks [] chunks).2 ++ t) = false) :
    decodeStream (chunks ++ [t]) = decodeStream chunks
    ∧ ∀ (parse : Str → Option Json) (convId : Str) (aIdx : Nat)
        (st : AppState),
        applyEvents parse convId aIdx st (decodeStream (chunks ++ [t])) =
          applyEvents parse convId aIdx st (decodeStream chunks) := by
  have hmain : decodeStream (chunks ++ [t]) = decodeStream chunks := by
    unfold decodeStream
    rw [runChunks_eq (chunks ++ [t]) [] rfl, runChunks_eq chunks [] rfl,
      List.nil_append, List.nil_append]
    rw [runChunks_eq chunks [] rfl, List.nil_append] at h
    rw [List.flatten_append, List.flatten_cons, List.flatten_nil,
      List.append_nil, splitBlocks_append]
    rw [splitBlocks_of_no_blank h]
    simp
  exact ⟨hmain, fun parse convId aIdx st => by rw [hmain]⟩

/-- Witness for C10: a stream ending in a complete-looking block with no
final delimiter yields only the events before it. -/
theorem decodeStream_discards_tail_witness :
    decodeStream (["data: a\n\n".data, "event: message\ndata: b".data]) =
      decodeStream (["data: a\n\n".data]) :=
  (decodeStream_discards_tail ["data: a\n\n".data]
    "event: message\ndata: b".data (by decide)).1

/-! ## Router lemmas -/

theorem findConv_id {st : AppState} {cur : Conv} (h : findConv st = some cur) :
    cur.id = st.currentId := by
  have h2 := List.find?_some h
  simpa using h2

theorem routeEvent_parse_none (parse : Str → Option Json) (convId : Str)
    (aIdx : Nat) (st : AppState) (ev : Str × Str) (h : parse ev.2 = none) :
    routeEvent parse convId aIdx st ev = st := by
  unfold routeEvent
  split_ifs <;> simp [h]

theorem routeEvent_currentId (parse : Str → Option Json) (convId : Str)
    (aIdx : Nat) (st : AppState) (ev : Str × Str) :
    (routeEvent parse convId aIdx st ev).currentId = st.currentId := by
  unfold routeEvent
  repeat' split
  all_goals simp [setConvSources, appendConvDelta]

theorem applyEvents_currentId (parse : Str → Option Json) (convId : Str)
    (aIdx : Nat) (st : AppState) (evs : List (Str × Str)) :
    (applyEvents parse convId aIdx st evs).currentId = st.currentId := by
  induction evs generalizing st with
  | nil => rfl
  | cons e es ih =>
    unfold applyEvents at ih ⊢
    rw [List.foldl_cons, ih, routeEvent_currentId]

theorem updateIdx_length (f : Msg → Msg) (i : Nat) (l : List Msg) :
    (updateIdx f i l).length = l.length := by
  induction l generalizing i with
  | nil => cases i <;> rfl
  | cons m r ih =>
    cases i with
    | zero => rfl
    | succ n => simpa [updateIdx] using ih n

theorem updateIdx_get? (f : Msg → Msg) (i : Nat) (l : List Msg) :
    (updateIdx f i l).get? i = (l.get? i).map f := by
  induction l generalizing i with
  | nil => cases i <;> rfl
  | cons m r ih =>
    cases i with
    | zero => rfl
    | succ n => simpa [updateIdx] using ih n

theorem find?_id_updateFirst (x y : Str) (f : Conv → Conv)
    (hid : ∀ c, (f c).id = c.id) (l : List Conv) :
    (updateFirst (fun c => decide (c.id = y)) f l).find?
        (fun c => decide (c.id = x)) =
      ((l.find? (fun c => decide (c.id = x))).map
        (fun c => if c.id = y then f c else c)) := by
  induction l with
  | nil => rfl
  | cons c r ih =>
    by_cases hcy : c.id = y
    · rw [updateFirst, if_pos (by simpa using hcy)]
      by_cases hcx : c.id = x
      · rw [List.find?_cons_of_pos _ (by simp [hid, hcx]),
          List.find?_cons_of_pos _ (by simp [hcx])]
        simp [hcy]
      · rw [List.find?_cons_of_neg _ (by simp [hid, hcx]),
          List.find?_cons_of_neg _ (by simp [hcx])]
        cases hr : r.find? (fun c => decide (c.id = x)) with
        | none => simp
        | some c' =>
          have hx : c'.id = x := by simpa using List.find?_some hr
          have hne : ¬ c'.id = y := by
            rw [hx]
            intro hxy
            exact hcx (hcy.trans hxy.symm)
          simp [hne]
    · rw [updateFirst, if_neg (by simpa using hcy)]
      by_cases hcx : c.id = x
      · rw [List.find?_cons_of_pos _ (by simp [hcx]),
          List.find?_cons_of_pos _ (by simp [hcx])]
        simp [hcy]
      · rw [List.find?_cons_of_neg _ (by simp [hcx]),
          List.find?_cons_of_neg _ (by simp [hcx])]
        exact ih

theorem routeEvent_find_len (parse : Str → Option Json) (convId : Str)
    (aIdx : Nat) (st : AppState) (ev : Str × Str) (x : Str) :
    Option.map (fun c => c.messages.length)
        ((routeEvent parse convId aIdx st ev).conversations.find?
          (fun c => decide (c.id = x))) =
      Option.map (fun c => c.messages.length)
        (st.conversations.find? (fun c => decide (c.id = x))) := by
  unfold routeEvent
  split_ifs with h1 h2 h3
  · rfl
  · rfl
  · cases hp : parse ev.2 with
    | none => rfl
    | some parsed =>
      cases hf : findConv st with
      | none => rfl
      | some cur =>
        dsimp only
        by_cases hc : cur.id = convId
        · rw [if_pos hc]
          unfold setConvSources
          simp only
          rw [find?_id_updateFirst x st.currentId
            (fun c => { c with sources := parsed }) (fun c => rfl)]
          cases st.conversations.find? (fun c => decide (c.id = x)) with
          | none => rfl
          | some c => by_cases hcc : c.id = st.currentId <;> simp [hcc]
        · rw [if_neg hc]
  · cases hp : parse ev.2 with
    | none => rfl
    | some json =>
      cases hf : findConv st with
      | none => rfl
      | some cur =>
        dsimp only
        by_cases hc : extractDelta json ≠ [] ∧ cur.id = convId
        · rw [if_pos hc]
          unfold appendConvDelta
          simp only
          rw [find?_id_updateFirst x st.currentId
            (fun c => { c with messages :=
              (updateIdx
                (fun m => { m with content := (m.content ++ extractDelta json) })
                aIdx c.messages) }) (fun c => rfl)]
          cases st.conversations.find? (fun c => decide (c.id = x)) with
          | none => rfl
          | some c =>
            by_cases hcc : c.id = st.currentId <;> simp [hcc, updateIdx_length]
        · rw [if_neg hc]

theorem applyEvents_find_len (parse : Str → Option Json) (convId : Str)
    (aIdx : Nat) (st : AppState) (evs : List (Str × Str)) (x : Str) :
    Option.map (fun c => c.messages.length)
        ((applyEvents parse convId aIdx st evs).conversations.find?
          (fun c => decide (c.id = x))) =
      Option.map (fun c => c.messages.length)
        (st.conversations.find? (fun c => decide (c.id = x))) := by
  induction evs generalizing st with
  | nil => rfl
  | cons e es ih =>
    unfold applyEvents at ih ⊢
    rw [List.foldl_cons, ih, routeEvent_find_len]

/-! ## Claim C7: malformed JSON events are dropped, the stream continues -/

/-- **C7.** For every stream event whose data payload fails to parse as
JSON (`parse` returns `none`, modelling a thrown `SyntaxError`),
processing the event leaves the conversation state unchanged — whether
it is a `sources` event (dropped with a log) or a chat chunk (dropped
silently) — and the surrounding stream processes exactly as if the
malformed event were absent: a single malformed event never aborts the
stream. -/
theorem routeEvent_malformed_dropped (parse : Str → Option Json)
    (convId : Str) (aIdx : Nat) (ev : Str × Str) (h : parse ev.2 = none) :
    (∀ st : AppState, routeEvent parse convId aIdx st ev = st)
    ∧ ∀ (st : AppState) (evs₁ evs₂ : List (Str × Str)),
        applyEvents parse convId aIdx st (evs₁ ++ ev :: evs₂) =
          applyEvents parse convId aIdx st (evs₁ ++ evs₂) := by
  constructor
  · intro st
    exact routeEvent_parse_none parse convId aIdx st ev h
  · intro st evs₁ evs₂
    unfold applyEvents
    rw [List.foldl_append, List.foldl_append, List.foldl_cons,
      routeEvent_parse_none parse convId aIdx _ ev h]

/-- Witness for C7: a malformed `sources` payload between two events is
dropped and the final state matches the stream without it. -/
theorem routeEvent_malformed_dropped_witness :
    (routeEvent (fun _ => none) "1".data 1
        (AppState.mk [Conv.mk "1".data
          [Msg.mk "user".data "hi".data, Msg.mk "assistant".data []]
          Json.null] "1".data)
        ("sources".data, "oops((".data) =
      AppState.mk [Conv.mk "1".data
          [Msg.mk "user".data "hi".data, Msg.mk "assistant".data []]
          Json.null] "1".data)
    ∧ applyEvents (fun _ => none) "1".data 1
        (AppState.mk [Conv.mk "1".data
          [Msg.mk "user".data "hi".data, Msg.mk "assistant".data []]
          Json.null] "1".data)
        ([("message".data, "x".data)] ++ ("sources".data, "oops((".data) ::
          [("message".data, "y".data)]) =
      applyEvents (fun _ => none) "1".data 1
        (AppState.mk [Conv.mk "1".data
          [Msg.mk "user".data "hi".data, Msg.mk "assistant".data []]
          Json.null] "1".data)
        ([("message".data, "x".data)] ++ [("message".data, "y".data)]) :=
  ⟨(routeEvent_malformed_dropped (fun _ => none) "1".data 1
      ("sources".data, "oops((".data) rfl).1 _,
    (routeEvent_malformed_dropped (fun _ => none) "1".data 1
      ("sources".data, "oops((".data) rfl).2 _ _ _⟩

/-! ## Claim C8: stale deltas never touch a newly-selected conversation -/

/-- **C8.** For every delta or source-list event arriving on an in-flight
stream after the user has switched to a different conversation
(`st.currentId ≠ convId`, where `convId` owns the streaming turn),
applying the event mutates nothing: both the source-list branch and the
delta branch re-check that the selected conversation is still the owner
before mutating, so in particular the newly-selected conversation is
never touched. -/
theorem routeEvent_stale_dropped (parse : Str → Option Json) (convId : Str)
    (aIdx : Nat) (st : AppState) (ev : Str × Str)
    (h : st.currentId ≠ convId) :
    routeEvent parse convId aIdx st ev = st := by
  unfold routeEvent
  split_ifs
  · rfl
  · rfl
  · cases hp : parse ev.2 with
    | none => rfl
    | some parsed =>
      cases hf : findConv st with
      | none => rfl
      | some cur =>
        dsimp only
        rw [if_neg]
        rw [findConv_id hf]
        exact h
  · cases hp : parse ev.2 with
    | none => rfl
    | some json =>
      cases hf : findConv st with
      | none => rfl
      | some cur =>
        dsimp only
        rw [if_neg]
        intro hand
        rw [findConv_id hf] at hand
        exact h hand.2

/-- Witness for C8: a well-formed delta chunk arriving after the user
switched from conversation `"1"` (owner of the stream) to `"2"` leaves
the state — in particular conversation `"2"` — unchanged. -/
theorem routeEvent_stale_dropped_witness :
    routeEvent
        (fun _ => some (Json.obj [("choices".data,
          Json.arr [Json.obj [("delta".data,
            Json.obj [("content".data, Json.str "hi".data)])]])]))
        "1".data 1
        (AppState.mk
          [Conv.mk "2".data [Msg.mk "user".data "q".data] Json.null,
            Conv.mk "1".data
              [Msg.mk "user".data "hi".data, Msg.mk "assistant".data []]
              Json.null]
          "2".data)
        ("message".data, "{}".data) =
      AppState.mk
        [Conv.mk "2".data [Msg.mk "user".data "q".data] Json.null,
          Conv.mk "1".data
            [Msg.mk "user".data "hi".data, Msg.mk "assistant".data []]
            Json.null]
        "2".data :=
  routeEvent_stale_dropped _ _ _ _ _ (by decide)

/-! ## Claim C4: the finalization fallback -/

/-- **C4, counterexample.** The claim "after the turn terminates for any
reason (normal stream end, transport error, or abort), the assistant
message's content is non-empty" fails for a normal stream end with no
deltas: the `catch` block is the only place the fallback is applied, so
a stream that ends cleanly (`done`) without ever producing a delta
leaves the placeholder assistant content empty. -/
theorem finalize_nonempty_cex :
    contentAt
        (runTurn (fun _ => none) "1".data 1
          (AppState.mk [Conv.mk "1".data
            [Msg.mk "user".data "hi".data, Msg.mk "assistant".data []]
            Json.null] "1".data)
          [] false)
        "1".data 1 = some [] := rfl

/-- **C4, amended.** After a turn that terminates with an exception
(transport error, non-ok response, or abort) while the owning
conversation is still the selected one and its assistant message exists,
that message's content is non-empty, and if no delta content was ever
applied during the turn it equals the fixed fallback error string.  A
turn that ends normally applies no fallback and may leave the content
empty. -/
theorem finalize_nonempty_amended (parse : Str → Option Json)
    (convId : Str) (aIdx : Nat) (st : AppState) (evs : List (Str × Str))
    (cv : Conv) (hsel : st.currentId = convId)
    (hfind : st.conversations.find? (fun c => c.id = convId) = some cv)
    (hlen : aIdx < cv.messages.length) :
    ∃ content : Str,
      contentAt (runTurn parse convId aIdx st evs true) convId aIdx =
        some content
      ∧ content ≠ []
      ∧ (contentAt (applyEvents parse convId aIdx st evs) convId aIdx =
          some [] → content = fallbackMsg) := by
  have hlen' := applyEvents_find_len parse convId aIdx st evs convId
  rw [hfind] at hlen'
  set st' := applyEvents parse convId aIdx st evs with hst'
  cases hfind' : st'.conversations.find? (fun c => decide (c.id = convId)) with
  | none => rw [hfind'] at hlen'; exact absurd hlen' (by simp)
  | some cv' =>
    rw [hfind'] at hlen'
    have hlen2 : cv'.messages.length = cv.messages.length := by
      simpa using hlen'
    have hcur' : st'.currentId = convId := by
      rw [hst', applyEvents_currentId, hsel]
    have hfc : findConv st' = some cv' := by
      unfold findConv
      rw [hcur']
      exact hfind'
    have hcvid : cv'.id = convId := by
      have := findConv_id hfc
      rw [hcur'] at this
      exact this
    cases hm : cv'.messages.get? aIdx with
    | none =>
      rw [List.get?_eq_none] at hm
      omega
    | some m =>
      refine ⟨if m.content = [] then fallbackMsg else m.content, ?_, ?_, ?_⟩
      · show contentAt (applyCatch convId aIdx st') convId aIdx = _
        unfold applyCatch
        rw [hfc]
        dsimp only
        rw [if_pos hcvid]
        unfold contentAt
        dsimp only
        rw [hcur', find?_id_updateFirst convId convId
          (fun c => { c with messages :=
            (updateIdx (fun m => { m with content :=
              (if m.content = [] then fallbackMsg else m.content) })
              aIdx c.messages) })
          (fun c => rfl), hfind']
        dsimp only [Option.map]
        rw [if_pos hcvid]
        dsimp only
        rw [updateIdx_get?, hm]
        rfl
      · split_ifs with hc
        · decide
        · exact hc
      · intro hempty
        unfold contentAt at hempty
        rw [hfind'] at hempty
        dsimp only at hempty
        rw [hm] at hempty
        have hmc : m.content = [] := by simpa using hempty
        rw [if_pos hmc]

/-- Witness for C4 (amended), at a concrete erroring turn with no
deltas: the assistant content becomes the fallback string. -/
theorem finalize_nonempty_amended_witness :
    ∃ content : Str,
      contentAt
          (runTurn (fun _ => none) "1".data 1
            (AppState.mk [Conv.mk "1".data
              [Msg.mk "user".data "hi".data, Msg.mk "assistant".data []]
              Json.null] "1".data)
            [] true)
          "1".data 1 = some content
      ∧ content ≠ []
      ∧ (contentAt
            (applyEvents (fun _ => none) "1".data 1
              (AppState.mk [Conv.mk "1".data
                [Msg.mk "user".data "hi".data, Msg.mk "assistant".data []]
                Json.null] "1".data)
              [])
            "1".data 1 = some [] → content = fallbackMsg) :=
  finalize_nonempty_amended (fun _ => none) "1".data 1
    (AppState.mk [Conv.mk "1".data
      [Msg.mk "user".data "hi".data, Msg.mk "assistant".data []]
      Json.null] "1".data)
    []
    (Conv.mk "1".data
      [Msg.mk "user".data "hi".data, Msg.mk "assistant".data []]
      Json.null)
    rfl rfl (by decide)

/-! ## Citation-rewriting lemmas -/

/-- A character that can start neither citation pattern. -/
def cleanCh (c : Char) : Bool := !(c = '[' || c = 'l' || c = 'L')

/-- Does a case-insensitive occurrence of `link` start at some position
of the string? -/
def hasLinkCI : Str → Bool
  | [] => false
  | c :: r => (consumeLitCI "link".data (c :: r)).isSome || hasLinkCI r

theorem ciEq_l_false {c : Char} (h1 : c ≠ 'l') (h2 : c ≠ 'L') :
    ciEq 'l' c = false := by
  have hl : lowerCh 'l' = 'l' := by decide
  rw [ciEq, hl]
  simp only [decide_eq_false_iff_not]
  intro heq
  have h1' : c.toNat ≠ 108 := by
    intro hh
    exact h1 ((char_eq_iff c 'l').mpr (by rw [hh]; rfl))
  have h2' : c.toNat ≠ 76 := by
    intro hh
    exact h2 ((char_eq_iff c 'L').mpr (by rw [hh]; rfl))
  rw [char_eq_iff, lowerCh_toNat] at heq
  have e1 : ('l').toNat = 108 := rfl
  rw [e1] at heq
  split_ifs at heq <;> omega

theorem cleanCh_ciEq {c : Char} (h : cleanCh c = true) :
    c ≠ '[' ∧ ciEq 'l' c = false := by
  simp only [cleanCh, Bool.not_eq_true', Bool.or_eq_false_iff,
    decide_eq_false_iff_not] at h
  obtain ⟨⟨ha, hb⟩, hc⟩ := h
  exact ⟨ha, ciEq_l_false hb hc⟩

theorem isJsWs_ciEq {c : Char} (h : isJsWs c = true) :
    c ≠ '[' ∧ ciEq 'l' c = false := by
  simp only [isJsWs, Bool.or_eq_true, decide_eq_true_eq] at h
  constructor
  · intro hc; subst hc; rcases h with h|h|h|h|h|h <;> exact absurd h (by decide)
  · refine ciEq_l_false ?_ ?_ <;> intro hc <;> subst hc <;>
      rcases h with h|h|h|h|h|h <;> exact absurd h (by decide)

theorem isDigitCh_ciEq {c : Char} (h : isDigitCh c = true) :
    c ≠ '[' ∧ ciEq 'l' c = false := by
  simp only [isDigitCh, Bool.and_eq_true, decide_eq_true_eq] at h
  have e1 : ('l').toNat = 108 := rfl
  have e2 : ('L').toNat = 76 := rfl
  have e3 : ('[').toNat = 91 := rfl
  constructor
  · intro hc
    rw [char_eq_iff, e3] at hc
    omega
  · refine ciEq_l_false (fun hc => ?_) (fun hc => ?_)
    · rw [char_eq_iff, e1] at hc; omega
    · rw [char_eq_iff, e2] at hc; omega

theorem consumeLitCI_cons_false {p c : Char} {ps r : Str}
    (h : ciEq p c = false) : consumeLitCI (p :: ps) (c :: r) = none := by
  simp [consumeLitCI, h]

theorem consumeLitCI_self (p s : Str) : consumeLitCI p (p ++ s) = some s := by
  induction p with
  | nil => rfl
  | cons c cs ih => simpa [consumeLitCI, ciEq] using ih

theorem consumeLitCI_append_blocked {pat : Str} {d : Char}
    (hd : ∀ p ∈ pat, ciEq p d = false) :
    ∀ {l r : Str}, (consumeLitCI pat (l ++ d :: r)).isSome = true →
      (consumeLitCI pat l).isSome = true := by
  induction pat with
  | nil => intro l r _; simp [consumeLitCI]
  | cons p ps ih =>
    intro l r h
    match l with
    | [] =>
      rw [List.nil_append,
        consumeLitCI_cons_false (hd p (List.mem_cons_self p ps))] at h
      simp at h
    | c :: l' =>
      rw [List.cons_append] at h
      by_cases hpc : ciEq p c = true
      · simp only [consumeLitCI, hpc, if_true] at h ⊢
        exact ih (fun q hq => hd q (List.mem_cons_of_mem p hq)) h
      · rw [consumeLitCI_cons_false (Bool.eq_false_iff.mpr hpc)] at h
        simp at h

theorem dropWhile_append_cons {p : Char → Bool} (l : Str) (x : Char) (r : Str)
    (hl : ∀ c ∈ l, p c = true) (hx : p x = false) :
    (l ++ x :: r).dropWhile p = x :: r := by
  induction l with
  | nil => simp [List.dropWhile, hx]
  | cons c cs ih =>
    have hc : p c = true := hl c (List.mem_cons_self c cs)
    simp only [List.cons_append, List.dropWhile, hc]
    exact ih fun d hd => hl d (List.mem_cons_of_mem c hd)

theorem take_length_append (l r : Str) : (l ++ r).take l.length = l := by
  induction l with
  | nil => rfl
  | cons c cs ih => simpa using ih

/-! ### Matcher failure and success lemmas -/

theorem matchBare_head_fail {c : Char} {r : Str} (h : ciEq 'l' c = false) :
    matchBare (c :: r) = none := by
  unfold matchBare
  rw [show ("link".data : Str) = 'l' :: "ink".data from rfl,
    consumeLitCI_cons_false h]

theorem matchBracketed_head_fail {c : Char} {r : Str} (h : c ≠ '[') :
    matchBracketed (c :: r) = none := by
  unfold matchBracketed
  simp [h]

theorem matchBracketed_second_fail {x : Char} {r : Str}
    (h : ciEq 'l' x = false) : matchBracketed ('[' :: x :: r) = none := by
  unfold matchBracketed
  dsimp only
  rw [if_pos rfl, consumeLitCI_cons_false h]

/-- `("link" ++ x).take 4 = "link"`. -/
theorem take4_link (x : Str) :
    List.take 4 ('l' :: 'i' :: 'n' :: 'k' :: x) = ['l', 'i', 'n', 'k'] := rfl

theorem consumeLitCI_link (x : Str) :
    consumeLitCI ['l', 'i', 'n', 'k'] ('l' :: 'i' :: 'n' :: 'k' :: x) = some x :=
  consumeLitCI_self "link".data x

/-- Success of the bare matcher exactly at a marker. -/
theorem matchBare_at_marker (w ds rest : Str)
    (hw : ∀ c ∈ w, isJsWs c = true) (hne : ds ≠ [])
    (hds : ∀ c ∈ ds, isDigitCh c = true) :
    matchBare ("link".data ++ w ++ '[' :: ds ++ ']' :: rest) =
      some ("link".data ++ w ++ '[' :: ds ++ [']'], ds, rest) := by
  unfold matchBare
  simp only [List.append_assoc, List.cons_append, List.nil_append]
  rw [consumeLitCI_link (w ++ '[' :: (ds ++ ']' :: rest))]
  dsimp only
  rw [dropWhile_append_cons w '[' (ds ++ ']' :: rest) hw (by decide)]
  dsimp only
  rw [if_pos rfl]
  rw [takeWhile_append_cons ds ']' rest hds (by decide)]
  rw [if_neg hne]
  rw [dropWhile_append_cons ds ']' rest hds (by decide)]
  dsimp only
  rw [if_pos rfl]
  rw [takeWhile_append_cons w '[' (ds ++ ']' :: rest) hw (by decide)]
  rw [take4_link]
  rfl

/-- Success of the bracketed matcher exactly at a marker. -/
theorem matchBracketed_at_marker (w ds rest : Str)
    (hw : ∀ c ∈ w, isJsWs c = true) (hne : ds ≠ [])
    (hds : ∀ c ∈ ds, isDigitCh c = true) :
    matchBracketed ('[' :: ("link".data ++ w ++ '[' :: ds ++ ']' :: ']' :: rest)) =
      some ('[' :: ("link".data ++ w ++ '[' :: ds ++ ']' :: [']']), ds, rest) := by
  unfold matchBracketed
  dsimp only
  rw [if_pos rfl]
  simp only [List.append_assoc, List.cons_append, List.nil_append]
  rw [consumeLitCI_link (w ++ '[' :: (ds ++ ']' :: ']' :: rest))]
  dsimp only
  rw [dropWhile_append_cons w '[' (ds ++ ']' :: ']' :: rest) hw (by decide)]
  dsimp only
  rw [if_pos rfl]
  rw [takeWhile_append_cons ds ']' (']' :: rest) hds (by decide)]
  rw [if_neg hne]
  rw [dropWhile_append_cons ds ']' (']' :: rest) hds (by decide)]
  dsimp only
  rw [if_pos rfl, if_pos rfl]
  rw [takeWhile_append_cons w '[' (ds ++ ']' :: ']' :: rest) hw (by decide)]
  rw [take4_link]
  rfl

/-! ### Pass stepping and walking lemmas -/

theorem bracketedPass_nil (S : List Src) : applyBracketedPass S [] = [] := by
  rw [applyBracketedPass]

theorem barePass_nil (S : List Src) : applyBarePass S [] = [] := by
  rw [applyBarePass]

theorem bracketedPass_cons_none (S : List Src) {c : Char} {cs : Str}
    (h : matchBracketed (c :: cs) = none) :
    applyBracketedPass S (c :: cs) = c :: applyBracketedPass S cs := by
  rw [applyBracketedPass, h]

theorem bracketedPass_cons_some (S : List Src) {c : Char} {cs raw ds rest : Str}
    (h : matchBracketed (c :: cs) = some (raw, ds, rest)) :
    applyBracketedPass S (c :: cs) =
      replaceWithLink S raw ds ++ applyBracketedPass S rest := by
  rw [applyBracketedPass, h]

theorem barePass_cons_none (S : List Src) {c : Char} {cs : Str}
    (h : matchBare (c :: cs) = none) :
    applyBarePass S (c :: cs) = c :: applyBarePass S cs := by
  rw [applyBarePass, h]

theorem barePass_cons_some (S : List Src) {c : Char} {cs raw ds rest : Str}
    (h : matchBare (c :: cs) = some (raw, ds, rest)) :
    applyBarePass S (c :: cs) =
      replaceWithLink S raw ds ++ applyBarePass S rest := by
  rw [applyBarePass, h]

theorem bracketedPass_walk (S : List Src) (P : Char → Prop)
    (hP : ∀ (c : Char) (r : Str), P c → matchBracketed (c :: r) = none)
    (a : Str) :
    ∀ b : Str, (∀ c ∈ a, P c) →
      applyBracketedPass S (a ++ b) = a ++ applyBracketedPass S b := by
  induction a with
  | nil => intro b _; rfl
  | cons c a' ih =>
    intro b ha
    rw [List.cons_append,
      bracketedPass_cons_none S (hP c (a' ++ b) (ha c (List.mem_cons_self c a'))),
      ih b (fun d hd => ha d (List.mem_cons_of_mem c hd)), List.cons_append]

theorem barePass_walk (S : List Src) (P : Char → Prop)
    (hP : ∀ (c : Char) (r : Str), P c → matchBare (c :: r) = none)
    (a : Str) :
    ∀ b : Str, (∀ c ∈ a, P c) →
      applyBarePass S (a ++ b) = a ++ applyBarePass S b := by
  induction a with
  | nil => intro b _; rfl
  | cons c a' ih =>
    intro b ha
    rw [List.cons_append,
      barePass_cons_none S (hP c (a' ++ b) (ha c (List.mem_cons_self c a'))),
      ih b (fun d hd => ha d (List.mem_cons_of_mem c hd)), List.cons_append]

theorem bracketedPass_eq_self (S : List Src) (a : Str)
    (ha : ∀ c ∈ a, c ≠ '[') : applyBracketedPass S a = a := by
  have h := bracketedPass_walk S (fun c => c ≠ '[')
    (fun c r hc => matchBracketed_head_fail hc) a [] ha
  rw [List.append_nil] at h
  rw [h, bracketedPass_nil, List.append_nil]

theorem barePass_eq_self (S : List Src) (a : Str)
    (ha : ∀ c ∈ a, ciEq 'l' c = false) : applyBarePass S a = a := by
  have h := barePass_walk S (fun c => ciEq 'l' c = false)
    (fun c r hc => matchBare_head_fail hc) a [] ha
  rw [List.append_nil] at h
  rw [h, barePass_nil, List.append_nil]

/-- The bare matcher fails at `link &#…`: the whitespace run after
`link` is followed by `&`, not `[`. -/
theorem matchBare_link_space_amp (r : Str) :
    matchBare ('l' :: 'i' :: 'n' :: 'k' :: ' ' :: '&' :: r) = none := by
  unfold matchBare
  rw [consumeLitCI_link (' ' :: '&' :: r)]
  dsimp only
  rw [show List.dropWhile isJsWs (' ' :: '&' :: r) = '&' :: r from
    dropWhile_append_cons [' '] '&' r (by decide) (by decide)]
  dsimp only
  rw [if_neg (by decide)]

/-- The bare matcher cannot match anywhere inside a string with no
case-insensitive occurrence of `link`, up to a `')'` boundary followed
by anything. -/
theorem matchBare_none_linkfree {c : Char} {h' s2 : Str}
    (h : hasLinkCI (c :: h') = false) :
    matchBare (c :: (h' ++ ')' :: s2)) = none := by
  cases hcl : consumeLitCI "link".data (c :: (h' ++ ')' :: s2)) with
  | some u =>
    exfalso
    have hblocked := @consumeLitCI_append_blocked
      "link".data ')'
      (by decide)
      (c :: h') s2
    have hsome : (consumeLitCI "link".data ((c :: h') ++ ')' :: s2)).isSome = true := by
      rw [show ((c :: h') ++ ')' :: s2) = c :: (h' ++ ')' :: s2) from rfl, hcl]
      rfl
    have := hblocked hsome
    rw [hasLinkCI] at h
    rw [Bool.or_eq_false_iff] at h
    rw [h.1] at this
    exact absurd this (by simp)
  | none =>
    unfold matchBare
    rw [hcl]

theorem barePass_linkfree (S : List Src) (s2 : Str) (hs : Str)
    (h : hasLinkCI hs = false) :
    applyBarePass S (hs ++ ')' :: s2) = hs ++ applyBarePass S (')' :: s2) := by
  induction hs with
  | nil => rfl
  | cons c h' ih =>
    have h2 : hasLinkCI h' = false := by
      rw [hasLinkCI, Bool.or_eq_false_iff] at h
      exact h.2
    rw [List.cons_append, barePass_cons_none S (matchBare_none_linkfree h),
      ih h2, List.cons_append]

/-! ### Pass-level computations at a marker -/

theorem pass1_id_bare (S : List Src) (p w ds s : Str)
    (hp1 : ∀ c ∈ p, c ≠ '[') (hw : ∀ c ∈ w, isJsWs c = true)
    (hne : ds ≠ []) (hds : ∀ c ∈ ds, isDigitCh c = true)
    (hs1 : ∀ c ∈ s, c ≠ '[') :
    applyBracketedPass S (p ++ citeMarker false w ds ++ s) =
      p ++ citeMarker false w ds ++ s := by
  have hshape : p ++ citeMarker false w ds ++ s =
      p ++ (("link".data ++ w) ++ ('[' :: (ds ++ ']' :: s))) := by
    simp [citeMarker, List.append_assoc]
  rw [hshape]
  rw [bracketedPass_walk S (fun c => c ≠ '[')
    (fun c r hc => matchBracketed_head_fail hc) p _ hp1]
  rw [bracketedPass_walk S (fun c => c ≠ '[')
    (fun c r hc => matchBracketed_head_fail hc) ("link".data ++ w) _
    (by
      intro c hc
      rcases List.mem_append.mp hc with h | h
      · rw [show ("link".data : Str) = ['l', 'i', 'n', 'k'] from rfl] at h
        fin_cases h <;> decide
      · exact (isJsWs_ciEq (hw c h)).1)]
  obtain ⟨d0, ds', hds0⟩ : ∃ d0 ds', ds = d0 :: ds' := by
    cases ds with
    | nil => exact absurd rfl hne
    | cons a b => exact ⟨a, b, rfl⟩
  have hstep : matchBracketed ('[' :: (ds ++ ']' :: s)) = none := by
    rw [hds0]
    exact matchBracketed_second_fail
      (isDigitCh_ciEq (hds d0 (by rw [hds0]; exact List.mem_cons_self d0 ds'))).2
  rw [bracketedPass_cons_none S hstep]
  rw [bracketedPass_eq_self S (ds ++ ']' :: s) (by
    intro c hc
    rcases List.mem_append.mp hc with h | h
    · exact (isDigitCh_ciEq (hds c h)).1
    · rcases List.mem_cons.mp h with h | h
      · subst h; decide
      · exact hs1 c h)]

theorem pass2_bare (S : List Src) (p w ds s : Str)
    (hp2 : ∀ c ∈ p, ciEq 'l' c = false) (hw : ∀ c ∈ w, isJsWs c = true)
    (hne : ds ≠ []) (hds : ∀ c ∈ ds, isDigitCh c = true)
    (hs2 : ∀ c ∈ s, ciEq 'l' c = false) :
    applyBarePass S (p ++ citeMarker false w ds ++ s) =
      p ++ replaceWithLink S (citeMarker false w ds) ds ++ s := by
  have hshape : p ++ citeMarker false w ds ++ s =
      p ++ ('l' :: ("ink".data ++ w ++ '[' :: ds ++ ']' :: s)) := by
    simp [citeMarker, List.append_assoc]
  rw [hshape]
  rw [barePass_walk S (fun c => ciEq 'l' c = false)
    (fun c r hc => matchBare_head_fail hc) p _ hp2]
  have hmatch : matchBare ('l' :: ("ink".data ++ w ++ '[' :: ds ++ ']' :: s)) =
      some (citeMarker false w ds, ds, s) :=
    matchBare_at_marker w ds s hw hne hds
  rw [barePass_cons_some S hmatch]
  rw [barePass_eq_self S s hs2]
  simp [List.append_assoc]

theorem pass1_bracketed (S : List Src) (p w ds s : Str)
    (hp1 : ∀ c ∈ p, c ≠ '[') (hw : ∀ c ∈ w, isJsWs c = true)
    (hne : ds ≠ []) (hds : ∀ c ∈ ds, isDigitCh c = true)
    (hs1 : ∀ c ∈ s, c ≠ '[') :
    applyBracketedPass S (p ++ citeMarker true w ds ++ s) =
      p ++ (replaceWithLink S (citeMarker true w ds) ds ++ s) := by
  have hshape : p ++ citeMarker true w ds ++ s =
      p ++ ('[' :: ("link".data ++ w ++ '[' :: ds ++ ']' :: ']' :: s)) := by
    simp [citeMarker, List.append_assoc]
  rw [hshape]
  rw [bracketedPass_walk S (fun c => c ≠ '[')
    (fun c r hc => matchBracketed_head_fail hc) p _ hp1]
  have hmatch : matchBracketed
      ('[' :: ("link".data ++ w ++ '[' :: ds ++ ']' :: ']' :: s)) =
      some (citeMarker true w ds, ds, s) :=
    matchBracketed_at_marker w ds s hw hne hds
  rw [bracketedPass_cons_some S hmatch]
  rw [bracketedPass_eq_self S s hs1]

/-- When the lookup does not replace (out-of-range index or missing
url), the bare pass re-matches the inner bare marker of an untouched
bracketed marker and leaves it unchanged again. -/
theorem pass2_unreplaced (S : List Src) (p w ds s : Str)
    (hR : ∀ raw : Str, replaceWithLink S raw ds = raw)
    (hp2 : ∀ c ∈ p, ciEq 'l' c = false) (hw : ∀ c ∈ w, isJsWs c = true)
    (hne : ds ≠ []) (hds : ∀ c ∈ ds, isDigitCh c = true)
    (hs2 : ∀ c ∈ s, ciEq 'l' c = false) :
    applyBarePass S (p ++ (citeMarker true w ds ++ s)) =
      p ++ (citeMarker true w ds ++ s) := by
  rw [barePass_walk S (fun c => ciEq 'l' c = false)
    (fun c r hc => matchBare_head_fail hc) p _ hp2]
  have hshape : citeMarker true w ds ++ s =
      '[' :: ('l' :: ("ink".data ++ w ++ '[' :: ds ++ ']' :: ']' :: s)) := by
    simp [citeMarker, List.append_assoc]
  rw [hshape]
  rw [barePass_cons_none S (matchBare_head_fail (by decide))]
  have hmatch : matchBare ('l' :: ("ink".data ++ w ++ '[' :: ds ++ ']' :: ']' :: s)) =
      some (citeMarker false w ds, ds, ']' :: s) :=
    matchBare_at_marker w ds (']' :: s) hw hne hds
  rw [barePass_cons_some S hmatch]
  rw [hR]
  rw [barePass_cons_none S (matchBare_head_fail (by decide))]
  rw [barePass_eq_self S s hs2]
  simp [citeMarker, List.append_assoc]

/-- The produced Markdown link is left unchanged by the bare pass: no
bare marker can start inside it when the sanitized URL contains no
case-insensitive `link`. -/
theorem pass2_replaced (S : List Src) (p ds u s : Str)
    (hds : ∀ c ∈ ds, isDigitCh c = true)
    (hlf : hasLinkCI (sanitizeUrl u) = false)
    (hp2 : ∀ c ∈ p, ciEq 'l' c = false)
    (hs2 : ∀ c ∈ s, ciEq 'l' c = false) :
    applyBarePass S (p ++ (citeRep ds u ++ s)) = p ++ (citeRep ds u ++ s) := by
  rw [barePass_walk S (fun c => ciEq 'l' c = false)
    (fun c r hc => matchBare_head_fail hc) p _ hp2]
  have hshape : citeRep ds u ++ s =
      '[' :: ('l' :: 'i' :: 'n' :: 'k' :: ' ' :: '&' ::
        (['#', '9', '1', ';'] ++ (ds ++ (['&', '#', '9', '3', ';', ']', '('] ++
          (sanitizeUrl u ++ ')' :: s))))) := by
    simp [citeRep, List.append_assoc]
  rw [hshape]
  rw [barePass_cons_none S (matchBare_head_fail (by decide))]
  rw [barePass_cons_none S (matchBare_link_space_amp _)]
  rw [show ('i' :: 'n' :: 'k' :: ' ' :: '&' ::
      (['#', '9', '1', ';'] ++ (ds ++ (['&', '#', '9', '3', ';', ']', '('] ++
        (sanitizeUrl u ++ ')' :: s)))) : Str) =
    ['i', 'n', 'k', ' ', '&'] ++
      (['#', '9', '1', ';'] ++ (ds ++ (['&', '#', '9', '3', ';', ']', '('] ++
        (sanitizeUrl u ++ ')' :: s)))) from rfl]
  rw [barePass_walk S (fun c => ciEq 'l' c = false)
    (fun c r hc => matchBare_head_fail hc) ['i', 'n', 'k', ' ', '&'] _ (by decide)]
  rw [barePass_walk S (fun c => ciEq 'l' c = false)
    (fun c r hc => matchBare_head_fail hc) ['#', '9', '1', ';'] _ (by decide)]
  rw [barePass_walk S (fun c => ciEq 'l' c = false)
    (fun c r hc => matchBare_head_fail hc) ds _
    (fun c hc => (isDigitCh_ciEq (hds c hc)).2)]
  rw [barePass_walk S (fun c => ciEq 'l' c = false)
    (fun c r hc => matchBare_head_fail hc) ['&', '#', '9', '3', ';', ']', '('] _
    (by decide)]
  rw [barePass_linkfree S s (sanitizeUrl u) hlf]
  rw [barePass_cons_none S (matchBare_head_fail (by decide))]
  rw [barePass_eq_self S s hs2]

/-- Closing step shared by the no-replacement branches of the bracketed
case. -/
theorem bracketed_unreplaced_close (S : List Src) (p w ds s : Str)
    (hR : ∀ raw : Str, replaceWithLink S raw ds = raw)
    (hp2 : ∀ c ∈ p, ciEq 'l' c = false) (hw : ∀ c ∈ w, isJsWs c = true)
    (hne : ds ≠ []) (hds : ∀ c ∈ ds, isDigitCh c = true)
    (hs2 : ∀ c ∈ s, ciEq 'l' c = false) :
    applyBarePass S (p ++ (replaceWithLink S (citeMarker true w ds) ds ++ s)) =
      p ++ replaceWithLink S (citeMarker true w ds) ds ++ s := by
  rw [hR, pass2_unreplaced S p w ds s hR hp2 hw hne hds hs2,
    List.append_assoc]

theorem bracketedPassF_cons (S : List Src) (fuel : Nat) (c : Char) (cs : Str) :
    applyBracketedPassF S (fuel + 1) (c :: cs) =
      match matchBracketed (c :: cs) with
      | some (raw, ds, rest) =>
        replaceWithLink S raw ds ++ applyBracketedPassF S fuel rest
      | none => c :: applyBracketedPassF S fuel cs := rfl

theorem barePassF_cons (S : List Src) (fuel : Nat) (c : Char) (cs : Str) :
    applyBarePassF S (fuel + 1) (c :: cs) =
      match matchBare (c :: cs) with
      | some (raw, ds, rest) =>
        replaceWithLink S raw ds ++ applyBarePassF S fuel rest
      | none => c :: applyBarePassF S fuel cs := rfl

theorem applyBracketedPassF_eq (S : List Src) :
    ∀ (fuel : Nat) (s : Str), s.length ≤ fuel →
      applyBracketedPassF S fuel s = applyBracketedPass S s := by
  intro fuel
  induction fuel with
  | zero =>
    intro s hs
    cases s with
    | nil => rw [bracketedPass_nil]; rfl
    | cons c cs => simp at hs
  | succ fuel ih =>
    intro s hs
    cases s with
    | nil => rw [bracketedPass_nil]; rfl
    | cons c cs =>
      cases hm : matchBracketed (c :: cs) with
      | none =>
        rw [bracketedPassF_cons, hm, bracketedPass_cons_none S hm]
        dsimp only
        rw [ih cs (by simp at hs; omega)]
      | some val =>
        obtain ⟨raw, ds, rest⟩ := val
        rw [bracketedPassF_cons, hm, bracketedPass_cons_some S hm]
        dsimp only
        rw [ih rest (Nat.lt_succ_iff.mp
          (Nat.lt_of_lt_of_le (matchBracketed_rest_length hm) hs))]

theorem applyBarePassF_eq (S : List Src) :
    ∀ (fuel : Nat) (s : Str), s.length ≤ fuel →
      applyBarePassF S fuel s = applyBarePass S s := by
  intro fuel
  induction fuel with
  | zero =>
    intro s hs
    cases s with
    | nil => rw [barePass_nil]; rfl
    | cons c cs => simp at hs
  | succ fuel ih =>
    intro s hs
    cases s with
    | nil => rw [barePass_nil]; rfl
    | cons c cs =>
      cases hm : matchBare (c :: cs) with
      | none =>
        rw [barePassF_cons, hm, barePass_cons_none S hm]
        dsimp only
        rw [ih cs (by simp at hs; omega)]
      | some val =>
        obtain ⟨raw, ds, rest⟩ := val
        rw [barePassF_cons, hm, barePass_cons_some S hm]
        dsimp only
        rw [ih rest (Nat.lt_succ_iff.mp
          (Nat.lt_of_lt_of_le (matchBare_rest_length hm) hs))]

theorem applySourceLinks_eval (text : Str) (sources : List Src) :
    applySourceLinks text sources = applySourceLinksF text sources := by
  unfold applySourceLinks applySourceLinksF
  by_cases h : text = [] ∨ sources = []
  · rw [if_pos h, if_pos h]
  · rw [if_neg h, if_neg h]
    rw [applyBracketedPassF_eq sources text.length text (Nat.le_refl _)]
    rw [applyBarePassF_eq sources (applyBracketedPass sources text).length
      (applyBracketedPass sources text) (Nat.le_refl _)]

/-! ## Claim C3: citation rewriting -/

/-- **C3, counterexample.**  The claim quantifies over every source list,
but a source URL whose sanitized form itself contains a bare citation
marker breaks it: with text `"[link [1]]"` and sources
`[{url: "http://x/link[2]"}, {url: "http://y/q"}]`, the bracketed pass
produces the claimed link for marker 1, but the bare pass then rewrites
the `link[2]` inside that link's URL, so the final output is not the
claimed `[link &#91;1&#93;](http://x/link[2])`. -/
theorem applySourceLinks_cex :
    applySourceLinks "[link [1]]".data
        [⟨some "http://x/link[2]".data⟩, ⟨some "http://y/q".data⟩] =
      "[link &#91;1&#93;](http://x/[link &#91;2&#93;](http://y/q))".data
    ∧ applySourceLinks "[link [1]]".data
        [⟨some "http://x/link[2]".data⟩, ⟨some "http://y/q".data⟩] ≠
      "[link &#91;1&#93;](".data ++
        sanitizeUrl "http://x/link[2]".data ++ [')'] := by
  constructor
  · rw [applySourceLinks_eval]
    decide
  · rw [applySourceLinks_eval]
    decide

/-- **C3, amended.**  For a citation marker `link [n]` (bracketed or
bare) occurring in a context that starts no other marker, and provided
no sanitized source URL itself contains a case-insensitive `link`
(otherwise the bare pass corrupts the produced URL, see the
counterexample): if `n ∈ [1, |S|]` and `S[n-1]` has a nonempty url, the
marker is replaced by the Markdown link `[link &#91;n&#93;](sanitizeUrl
url)`; an out-of-range `n` or a missing/empty url leaves the marker
character-for-character unchanged.  Both outcomes are the source's
`replaceWithLink`. -/
theorem applySourceLinks_marker_amended (brk : Bool) (w ds p s : Str)
    (S : List Src)
    (hw : ∀ c ∈ w, isJsWs c = true)
    (hne : ds ≠ []) (hds : ∀ c ∈ ds, isDigitCh c = true)
    (hp : ∀ c ∈ p, cleanCh c = true) (hs : ∀ c ∈ s, cleanCh c = true)
    (hhref : ∀ src ∈ S, ∀ u, src.url = some u →
      hasLinkCI (sanitizeUrl u) = false) :
    applySourceLinks (p ++ citeMarker brk w ds ++ s) S =
      p ++ replaceWithLink S (citeMarker brk w ds) ds ++ s := by
  have hmne : citeMarker brk w ds ≠ [] := by
    cases brk <;> simp [citeMarker]
  have htext : p ++ citeMarker brk w ds ++ s ≠ [] := by
    intro hnil
    simp only [List.append_eq_nil] at hnil
    exact hmne hnil.1.2
  have hp1 : ∀ c ∈ p, c ≠ '[' := fun c hc => (cleanCh_ciEq (hp c hc)).1
  have hp2 : ∀ c ∈ p, ciEq 'l' c = false := fun c hc => (cleanCh_ciEq (hp c hc)).2
  have hs1 : ∀ c ∈ s, c ≠ '[' := fun c hc => (cleanCh_ciEq (hs c hc)).1
  have hs2 : ∀ c ∈ s, ciEq 'l' c = false := fun c hc => (cleanCh_ciEq (hs c hc)).2
  by_cases hS : S = []
  · subst hS
    rw [applySourceLinks, if_pos (Or.inr rfl)]
    have hrw : replaceWithLink [] (citeMarker brk w ds) ds =
        citeMarker brk w ds := by
      unfold replaceWithLink
      rcases Nat.eq_zero_or_pos (natOfDigits ds) with h0 | h0
      · rw [if_pos (Or.inl h0)]
      · rw [if_pos (Or.inr (by simpa using h0))]
    rw [hrw]
  · rw [applySourceLinks, if_neg (not_or.mpr ⟨htext, hS⟩)]
    cases brk with
    | false =>
      rw [pass1_id_bare S p w ds s hp1 hw hne hds hs1]
      exact pass2_bare S p w ds s hp2 hw hne hds hs2
    | true =>
      rw [pass1_bracketed S p w ds s hp1 hw hne hds hs1]
      by_cases hcond : (natOfDigits ds = 0 ∨ S.length < natOfDigits ds)
      · exact bracketed_unreplaced_close S p w ds s
          (fun raw => by unfold replaceWithLink; rw [if_pos hcond])
          hp2 hw hne hds hs2
      · have hn : natOfDigits ds - 1 < S.length := by
          push_neg at hcond
          omega
        obtain ⟨src, hsrc⟩ : ∃ src, S.get? (natOfDigits ds - 1) = some src := by
          rw [List.get?_eq_get hn]
          exact ⟨_, rfl⟩
        have hmem : src ∈ S := List.get?_mem hsrc
        cases hurl : src.url with
        | none =>
          exact bracketed_unreplaced_close S p w ds s
            (fun raw => by
              unfold replaceWithLink
              rw [if_neg hcond, hsrc]
              dsimp only
              rw [hurl])
            hp2 hw hne hds hs2
        | some u =>
          by_cases hu : u = []
          · exact bracketed_unreplaced_close S p w ds s
              (fun raw => by
                unfold replaceWithLink
                rw [if_neg hcond, hsrc]
                dsimp only
                rw [hurl]
                dsimp only
                rw [if_pos hu])
              hp2 hw hne hds hs2
          · have hR : ∀ raw : Str, replaceWithLink S raw ds = citeRep ds u :=
              fun raw => by
                unfold replaceWithLink
                rw [if_neg hcond, hsrc]
                dsimp only
                rw [hurl]
                dsimp only
                rw [if_neg hu]
                simp [citeRep, List.append_assoc]
            have hlf : hasLinkCI (sanitizeUrl u) = false := hhref src hmem u hurl
            rw [hR]
            rw [pass2_replaced S p ds u s hds hlf hp2 hs2]
            rw [List.append_assoc]

/-- Witness for C3 (amended): an in-range replacement in context, and an
out-of-range marker left unchanged. -/
theorem applySourceLinks_marker_amended_witness :
    applySourceLinks "see [link [1]] now".data [⟨some "http://a".data⟩] =
      "see ".data ++ "[link &#91;1&#93;](http://a)".data ++ " now".data
    ∧ applySourceLinks "see link [2] now".data [⟨some "http://a".data⟩] =
      "see ".data ++ "link [2]".data ++ " now".data := by
  constructor
  · have h := applySourceLinks_marker_amended true [' '] ['1']
      "see ".data " now".data [⟨some "http://a".data⟩]
      (by decide) (by decide) (by decide) (by decide) (by decide)
      (by
        intro src hmem u hurl
        fin_cases hmem
        cases hurl
        decide)
    rw [show ("see [link [1]] now".data : Str) =
      "see ".data ++ citeMarker true [' '] ['1'] ++ " now".data by decide]
    rw [h]
    decide
  · have h := applySourceLinks_marker_amended false [' '] ['2']
      "see ".data " now".data [⟨some "http://a".data⟩]
      (by decide) (by decide) (by decide) (by decide) (by decide)
      (by
        intro src hmem u hurl
        fin_cases hmem
        cases hurl
        decide)
    rw [show ("see link [2] now".data : Str) =
      "see ".data ++ citeMarker false [' '] ['2'] ++ " now".data by decide]
    rw [h]
    decide

/-! ## Claim C6: total behaviour of `sanitizeUrl` -/

/-- **C6.** For every input `u`, `sanitizeUrl u` returns normally (it is a
total function); if `u` is empty it returns `"#"`; otherwise `u` is
resolved against the fixed base origin and, if the resolved scheme
(lowercased) is `javascript:` or `data:`, or URL parsing fails, the
result is `"#"`; in all remaining cases the result is the resolved
absolute URL. -/
theorem sanitizeUrl_spec :
    sanitizeUrl [] = ['#']
    ∧ (∀ u : Str, parseURL u = none → sanitizeUrl u = ['#'])
    ∧ (∀ (u : Str) (p : ParsedURL), parseURL u = some p →
        ((p.protocol = "javascript:".data ∨ p.protocol = "data:".data) →
          sanitizeUrl u = ['#'])
        ∧ (p.protocol ≠ "javascript:".data → p.protocol ≠ "data:".data →
          u ≠ [] → sanitizeUrl u = p.href)) := by
  refine ⟨rfl, ?_, ?_⟩
  · intro u h
    by_cases hu : u = []
    · subst hu; exact absurd h (by decide)
    · simp [sanitizeUrl, hu, h]
  · intro u p hp
    constructor
    · intro hd
      by_cases hu : u = []
      · subst hu; rfl
      · rcases hd with h1 | h1 <;> simp [sanitizeUrl, hu, hp, h1]
    · intro h1 h2 hu
      simp [sanitizeUrl, hu, hp, h1, h2]

/-- Witness for C6 at concrete inputs: a parse failure (`"http:"` has no
authority), a dangerous scheme, and an ordinary absolute URL. -/
theorem sanitizeUrl_spec_witness :
    sanitizeUrl "http:".data = ['#']
    ∧ sanitizeUrl "javascript:alert(1)".data = ['#']
    ∧ sanitizeUrl "http://a".data = "http://a".data := by
  refine ⟨?_, ?_, ?_⟩
  · exact sanitizeUrl_spec.2.1 "http:".data (by decide)
  · exact (sanitizeUrl_spec.2.2 "javascript:alert(1)".data
      ⟨"javascript:".data, "javascript:alert(1)".data⟩ (by decide)).1 (Or.inl rfl)
  · exact (sanitizeUrl_spec.2.2 "http://a".data
      ⟨"http:".data, "http://a".data⟩ (by decide)).2 (by decide) (by decide) (by decide)

/-! ## Claim C9: `sanitizeUrl` is not idempotent on `"#"` -/

/-- **C9, counterexample.** The claim "`sanitizeUrl (sanitizeUrl u)`
yields the same safe value as `sanitizeUrl u` or yields `#`" fails at
`u = "javascript:alert(1)"`: the first application yields the
placeholder `"#"`, and re-sanitizing `"#"` resolves it against the base
origin to `"http://localhost/#"`, which is neither `"#"` nor the first
result. -/
theorem sanitizeUrl_idem_cex :
    sanitizeUrl (sanitizeUrl "javascript:alert(1)".data) ≠
        sanitizeUrl "javascript:alert(1)".data
    ∧ sanitizeUrl (sanitizeUrl "javascript:alert(1)".data) ≠ ['#'] := by
  constructor <;> decide

/-- **C9, amended.** `sanitizeUrl` is idempotent on every input it does
not reject: for every `u`, either `sanitizeUrl u = "#"` (in which case
re-sanitizing yields the base-resolved form of `"#"` rather than `"#"`
itself), or `sanitizeUrl (sanitizeUrl u) = sanitizeUrl u`. -/
theorem sanitizeUrl_idem_amended (u : Str) :
    sanitizeUrl u = ['#'] ∨ sanitizeUrl (sanitizeUrl u) = sanitizeUrl u := by
  by_cases hu : u = []
  · left; rw [hu]; rfl
  · cases hp : parseURL u with
    | none => left; simp [sanitizeUrl, hu, hp]
    | some p =>
      by_cases hd : p.protocol = "javascript:".data ∨ p.protocol = "data:".data
      · left
        rcases hd with h1 | h1 <;> simp [sanitizeUrl, hu, hp, h1]
      · right
        push_neg at hd
        have hres : sanitizeUrl u = p.href := by
          simp [sanitizeUrl, hu, hp, hd.1, hd.2]
        obtain ⟨hne, hrt⟩ := parseURL_roundtrip hp
        rw [hres]
        simp [sanitizeUrl, hne, hrt, hd.1, hd.2]

/-! ## Inline math scanning lemmas -/

theorem parenLoop_close (acc cs : Str) :
    parenLoop acc ('\\' :: ')' :: cs) = some (acc, cs) := by
  simp [parenLoop]

theorem parenLoop_step (acc : Str) (c d : Char) (cs : Str)
    (h : ¬(c = '\\' ∧ d = ')')) (hl : isLineTerm c = false) :
    parenLoop acc (c :: d :: cs) = parenLoop (acc ++ [c]) (d :: cs) := by
  simp [parenLoop, h, hl]

/-- Scanning a close-free, line-terminator-free body runs straight to
the closing `\)`. -/
theorem parenLoop_run (bs : Str) : ∀ (acc rest : Str),
    (∀ c ∈ bs, isLineTerm c = false) →
    hasSub ['\\', ')'] bs = false →
    parenLoop acc (bs ++ '\\' :: ')' :: rest) = some (acc ++ bs, rest) := by
  induction bs with
  | nil =>
    intro acc rest _ _
    rw [List.nil_append, parenLoop_close]
    simp
  | cons c bs ih =>
    intro acc rest hlt hcl
    have hltc : isLineTerm c = false := hlt c (List.mem_cons_self c bs)
    rw [hasSub, Bool.or_eq_false_iff] at hcl
    obtain ⟨hc1, hc2⟩ := hcl
    cases bs with
    | nil =>
      rw [show (([c] : Str) ++ '\\' :: ')' :: rest) =
        c :: '\\' :: ')' :: rest from rfl]
      rw [parenLoop_step acc c '\\' (')' :: rest) (by simp) hltc]
      rw [parenLoop_close]
    | cons d bs' =>
      have hpair : ¬(c = '\\' ∧ d = ')') := by
        rintro ⟨h1, h2⟩
        subst h1; subst h2
        simp [consumeLit] at hc1
      rw [show ((c :: d :: bs') ++ '\\' :: ')' :: rest) =
        c :: d :: (bs' ++ '\\' :: ')' :: rest) from rfl]
      rw [parenLoop_step acc c d _ hpair hltc]
      rw [show (d :: (bs' ++ '\\' :: ')' :: rest)) =
        ((d :: bs') ++ '\\' :: ')' :: rest) from rfl]
      rw [ih (acc ++ [c]) rest
        (fun x hx => hlt x (List.mem_cons_of_mem c hx)) hc2]
      simp

theorem parenMatch_span (body rest : Str) (hne : body ≠ [])
    (hlt : ∀ c ∈ body, isLineTerm c = false)
    (hcl : hasSub ['\\', ')'] body = false) :
    parenMatch ('\\' :: '(' :: (body ++ '\\' :: ')' :: rest)) =
      some ('\\' :: '(' :: (body ++ ['\\', ')']), body) := by
  cases body with
  | nil => exact absurd rfl hne
  | cons c bs =>
    have hltc : isLineTerm c = false := hlt c (List.mem_cons_self c bs)
    rw [hasSub, Bool.or_eq_false_iff] at hcl
    have hrun := parenLoop_run bs [c] rest
      (fun x hx => hlt x (List.mem_cons_of_mem c hx)) hcl.2
    rw [show ((c :: bs) ++ '\\' :: ')' :: rest) =
      c :: (bs ++ '\\' :: ')' :: rest) from rfl]
    simp only [parenMatch]
    rw [if_neg (by simp [hltc])]
    rw [hrun]
    simp

theorem dollarMatch_backslash (t : Str) : dollarMatch ('\\' :: t) = none := rfl

/-! ## Claim C5: inline `\( \)` math recognition -/

/-- **C5, counterexample.**  The claim says `\( ... \)` bodies "may span
lines", but the tokenizer's regex `/^\\\((.+?)\\\)/` has no `s` flag, so
`.` rejects line terminators: the delimited span `\(a\nb\)`, whose body
contains a newline, is not recognized as a math token at all. -/
theorem mathInline_newline_cex :
    ("\\(a\nb\\)".data : Str) = "\\(".data ++ ("a\nb".data ++ "\\)".data)
    ∧ mathInlineTokenizer "\\(a\nb\\)".data = none := ⟨by decide, by decide⟩

/-- **C5, amended.**  For a body that is nonempty, contains no line
terminator, and does not contain the closing delimiter `\)`, the
tokenizer recognizes `\(body\)` at the head of the input as one inline
math token whose raw text is exactly the delimited span, and the
extension renders that token via `renderMath` with `displayMode =
false`.  Bodies spanning a newline are rejected (see the
counterexample). -/
theorem mathInline_paren_amended (body rest : Str)
    (katexFn : Str → Bool → Option Str)
    (hne : body ≠ [])
    (hlt : ∀ c ∈ body, isLineTerm c = false)
    (hcl : hasSub "\\)".data body = false) :
    mathInlineTokenizer ("\\(".data ++ (body ++ ("\\)".data ++ rest))) =
      some ("\\(".data ++ (body ++ "\\)".data), body)
    ∧ mathInlineRender katexFn ("\\(".data ++ (body ++ "\\)".data), body) =
        renderMath katexFn body false := by
  constructor
  · show mathInlineTokenizer ('\\' :: '(' :: (body ++ '\\' :: ')' :: rest)) =
      some ('\\' :: '(' :: (body ++ ['\\', ')']), body)
    simp only [mathInlineTokenizer]
    rw [dollarMatch_backslash]
    exact parenMatch_span body rest hne hlt hcl
  · rfl

/-- Witness for C5 (amended): `\(a+b\)` followed by ` x` tokenizes to
one inline token with body `a+b`, rendered without display mode. -/
theorem mathInline_paren_amended_witness :
    mathInlineTokenizer
        ("\\(".data ++ ("a+b".data ++ ("\\)".data ++ " x".data))) =
      some ("\\(".data ++ ("a+b".data ++ "\\)".data), "a+b".data)
    ∧ mathInlineRender (fun _ _ => none)
        ("\\(".data ++ ("a+b".data ++ "\\)".data), "a+b".data) =
        renderMath (fun _ _ => none) "a+b".data false :=
  mathInline_paren_amended "a+b".data " x".data (fun _ _ => none)
    (by decide) (by decide) (by decide)

/-! ## Badge scanning lemmas and the markdown pipeline -/

theorem replaceBadgeLinks_nil : replaceBadgeLinks [] = [] := by
  rw [replaceBadgeLinks]

theorem replaceBadgeLinks_cons_none {c : Char} {cs : Str}
    (h : matchBadge (c :: cs) = none) :
    replaceBadgeLinks (c :: cs) = c :: replaceBadgeLinks cs := by
  rw [replaceBadgeLinks, h]

theorem replaceBadgeLinks_cons_some {c : Char} {cs alt img href rest : Str}
    (h : matchBadge (c :: cs) = some (alt, img, href, rest)) :
    replaceBadgeLinks (c :: cs) =
      badgeRep alt img href ++ replaceBadgeLinks rest := by
  rw [replaceBadgeLinks, h]

theorem badgeLinksF_cons (fuel : Nat) (c : Char) (cs : Str) :
    replaceBadgeLinksF (fuel + 1) (c :: cs) =
      match matchBadge (c :: cs) with
      | some (alt, img, href, rest) =>
        badgeRep alt img href ++ replaceBadgeLinksF fuel rest
      | none => c :: replaceBadgeLinksF fuel cs := rfl

theorem replaceBadgeLinksF_eq :
    ∀ (fuel : Nat) (s : Str), s.length ≤ fuel →
      replaceBadgeLinksF fuel s = replaceBadgeLinks s := by
  intro fuel
  induction fuel with
  | zero =>
    intro s hs
    cases s with
    | nil => rw [replaceBadgeLinks_nil]; rfl
    | cons c cs => simp at hs
  | succ fuel ih =>
    intro s hs
    cases s with
    | nil => rw [replaceBadgeLinks_nil]; rfl
    | cons c cs =>
      cases hm : matchBadge (c :: cs) with
      | none =>
        rw [badgeLinksF_cons, hm, replaceBadgeLinks_cons_none hm]
        dsimp only
        rw [ih cs (by simp at hs; omega)]
      | some val =>
        obtain ⟨alt, img, href, rest⟩ := val
        rw [badgeLinksF_cons, hm, replaceBadgeLinks_cons_some hm]
        dsimp only
        rw [ih rest (Nat.lt_succ_iff.mp
          (Nat.lt_of_lt_of_le (matchBadge_rest_length hm) hs))]

theorem replaceBadgeLinks_eval (s : Str) :
    replaceBadgeLinks s = replaceBadgeLinksF s.length s :=
  (replaceBadgeLinksF_eq s.length s (Nat.le_refl _)).symm

/-- `escapeHtml` output contains no raw `<` at all: `<` itself becomes
`&lt;` and no replacement entity contains `<`. -/
theorem escapeHtml_no_lt (s : Str) : ∀ c ∈ escapeHtml s, c ≠ '<' := by
  induction s with
  | nil => intro c hc; simp [escapeHtml] at hc
  | cons a r ih =>
    intro c hc
    rw [escapeHtml, List.mem_append] at hc
    rcases hc with hc | hc
    · unfold escChar at hc
      split_ifs at hc with h1 h2 h3
      · fin_cases hc <;> decide
      · fin_cases hc <;> decide
      · fin_cases hc <;> decide
      · simp at hc
        subst hc
        exact h2
    · exact ih c hc

/-! ## Claim C1: safety of `renderMarkdown` -/

/-- **C1, counterexample.**  Two parts fail.  (1) The raw-HTML
allow-list (`renderer.html`) checks only the *shape* of a badge anchor,
not its URL scheme: an adversarial raw-HTML token carrying
`href="javascript:alert(1)"` matches `badgePattern` and is emitted
verbatim, so the markup for that token contains a `javascript:`
attribute value.  (2) The exception fallback escapes the *preprocessed*
text (after citation and badge rewriting), not the input: for the input
`[![a](http://i)](http://h)` the fallback differs from the HTML-escaped
input with newlines turned into line breaks. -/
theorem renderMarkdown_safety_cex :
    (rendererHtml ("<a href=\"javascript:alert(1)\" target=\"_blank\"" ++
          " rel=\"noreferrer\"><img src=\"http://x\" alt=\"\"" ++
          " loading=\"lazy\" /></a>").data =
        ("<a href=\"javascript:alert(1)\" target=\"_blank\"" ++
          " rel=\"noreferrer\"><img src=\"http://x\" alt=\"\"" ++
          " loading=\"lazy\" /></a>").data
      ∧ hasSub "href=\"javascript:".data
          (rendererHtml ("<a href=\"javascript:alert(1)\" target=\"_blank\"" ++
            " rel=\"noreferrer\"><img src=\"http://x\" alt=\"\"" ++
            " loading=\"lazy\" /></a>").data) = true)
    ∧ renderMarkdown (fun _ => Except.error ())
          "[![a](http://i)](http://h)".data [] ≠
        escapeAndBr "[![a](http://i)](http://h)".data := by
  refine ⟨⟨?_, ?_⟩, ?_⟩
  · decide
  · decide
  · have he : renderMarkdown (fun _ => Except.error ())
        "[![a](http://i)](http://h)".data [] =
        escapeAndBr (replaceBadgeLinksF
          (applySourceLinks "[![a](http://i)](http://h)".data []).length
          (applySourceLinks "[![a](http://i)](http://h)".data [])) := by
      unfold renderMarkdown
      rw [if_neg (by decide)]
      dsimp only
      rw [replaceBadgeLinks_eval]
    rw [he]
    decide

/-- **C1, amended.**  In the model (with `marked.parse` as a
parameter), `renderMarkdown` is a total function; on a rendering
exception it falls back to the HTML-escaped *preprocessed* text (after
citation and badge rewriting) with newlines turned into `<br>` — not
the original input; and the raw-HTML renderer HTML-escapes any token
matching neither the break nor the badge shape, so such output contains
no raw `<` at all (in particular no `<script>` tag).  Tokens matching
the badge shape are emitted verbatim, `javascript:` hrefs included (see
the counterexample). -/
theorem renderMarkdown_amended (markedParse : Str → Except Unit Str)
    (text html : Str) (sources : List Src)
    (hne : text ≠ [])
    (herr : markedParse (replaceBadgeLinks (applySourceLinks text sources)) =
      Except.error ())
    (hbr : breakMatch (jsTrim html) = false)
    (hbg : badgeMatch (jsTrim html) = false) :
    renderMarkdown markedParse text sources =
      escapeAndBr (replaceBadgeLinks (applySourceLinks text sources))
    ∧ rendererHtml html = escapeHtml html
    ∧ ∀ c ∈ rendererHtml html, c ≠ '<' := by
  have h2 : rendererHtml html = escapeHtml html := by
    unfold rendererHtml
    rw [if_neg (by simp [hbr]), if_neg (by simp [hbg])]
  refine ⟨?_, h2, ?_⟩
  · unfold renderMarkdown
    rw [if_neg hne, herr]
  · rw [h2]
    exact escapeHtml_no_lt html

/-- Witness for C1 (amended): a failing parse falls back to the
escaped preprocessed text, and a `<script>` token is escaped, with no
raw `<` in its markup. -/
theorem renderMarkdown_amended_witness :
    renderMarkdown (fun _ => Except.error ()) "hi\nthere".data [] =
      escapeAndBr (replaceBadgeLinks (applySourceLinks "hi\nthere".data []))
    ∧ rendererHtml "<script>alert(1)</script>".data =
        escapeHtml "<script>alert(1)</script>".data
    ∧ ∀ c ∈ rendererHtml "<script>alert(1)</script>".data, c ≠ '<' :=
  renderMarkdown_amended (fun _ => Except.error ()) "hi\nthere".data
    "<script>alert(1)</script>".data []
    (by decide) rfl (by decide) (by decide)

end ChatLlama
